import Mathlib

/-!
Verification development for the `mm.c` dynamic-memory allocator.

The allocator manages a single growable region tiled by blocks.  Each block
carries its total size (header + payload + footer) and an allocation flag in
the sign bit of its header and footer words; free blocks are threaded on an
intrusive doubly linked list whose link words live in the free payload.

Shallow embedding conventions used throughout:
  * The program is compiled for a 32-bit target (`long` and pointers are
    4 bytes; the allocation flag `1<<31` is the sign bit of a 4-byte `long`,
    and `OFFSET` leaves 4 zero bytes at the bottom of the region, matching
    the comments in the source).
  * The tiled region is a `List Block` in address order.  A block's address
    is the byte offset of its header from the region base; the first block
    starts at `OFFSET`.  `blockAt` walks the list exactly the way the
    boundary tags are walked by `NEXT` in the source.
  * The intrusive free list is abstracted as the `List Nat` of the block
    addresses it threads, head first.  `LL_delete` becomes `List.erase`,
    prepending at `free_nodes_head` becomes `List.cons`, and the splice in
    `mm_free` that lets a merged block inherit the absorbed block's links
    becomes an in-place replacement of the absorbed address.  Link words of
    freshly grown memory are taken to be `NULL` (the `memlib` arena starts
    zero-filled), so `LL_delete` on a block that was never threaded is a
    no-op.
  * Machine arithmetic is modelled on `Nat`.  Sizes handled by the program
    stay far below `2^31`, so the sign-bit packing never collides with the
    size field and no wrap-around occurs.  Where the source computes a
    signed difference that is non-negative at every call site, truncated
    `Nat` subtraction is used and the call-site condition is recorded.
-/

namespace MM

/-- Size of `long` on the 32-bit target. -/
def sizeofLong : Nat := 4

/-- Size of `long *` on the 32-bit target. -/
def sizeofPtr : Nat := 4

/-- `#define ALIGNMENT 8`. -/
def ALIGNMENT : Nat := 8

/-- `#define ALIGN(size) (((size) + (ALIGNMENT-1)) & ~0x7)`.
Masking off the low three bits of `size + 7` is subtraction of the
remainder mod 8. -/
def ALIGN (size : Nat) : Nat := (size + 7) - (size + 7) % 8

/-- `#define BLOCK_MIN (sizeof(long)*2 + sizeof(long *)*2)`: header, footer
and room for the two free-list link pointers.  16 bytes on this target. -/
def BLOCK_MIN : Nat := 2 * sizeofLong + 2 * sizeofPtr

/-- `#define INNER_MIN (2*sizeof(long *))`. -/
def INNER_MIN : Nat := 2 * sizeofPtr

/-- `#define ALIGN_FLOOR(size, minimum) (MAX(ALIGN(size), (minimum)) + 2*sizeof(long))`. -/
def ALIGN_FLOOR (size minimum : Nat) : Nat := max (ALIGN size) minimum + 2 * sizeofLong

/-- `#define OFFSET (ALIGN(sizeof(long))-sizeof(long))`: 4 unused bytes at
the bottom of the region that keep payloads 8-aligned. -/
def OFFSET : Nat := ALIGN sizeofLong - sizeofLong

/-- One boundary-tagged block: its total size in bytes (header and footer
included, `BLOCKSIZE` in the source) and its allocation flag (the sign bit
of the tag word, `IS_ALLOC`). -/
structure Block where
  size : Nat
  alloc : Bool
  deriving Repr, DecidableEq

/-- Total byte length of a run of blocks. -/
def sumSize (l : List Block) : Nat := (l.map Block.size).sum

/-- Allocator state: the tiled region in address order plus the abstract
free list (`free_nodes_head` chain), as block addresses, head first. -/
structure Heap where
  blocks : List Block
  freeList : List Nat
  deriving Repr, DecidableEq

/-- Resolve a block address the way the boundary-tag walk does: starting
from `base` (the address of the first block of `l`), step by `BLOCKSIZE`
until the address matches. -/
def blockAt : List Block → Nat → Nat → Option Block
  | [], _, _ => none
  | b :: rest, base, a => if base = a then some b else blockAt rest (base + b.size) a

/-- `BLOCKSIZE` at an address (0 when the address is not a block start;
never exercised under the well-formedness hypotheses of the theorems). -/
def sizeAt (l : List Block) (a : Nat) : Nat :=
  match blockAt l OFFSET a with
  | some b => b.size
  | none => 0

/-- `INNERSIZE(block) = BLOCKSIZE(block) - 2*sizeof(long)` at an address. -/
def innerAt (l : List Block) (a : Nat) : Nat :=
  match blockAt l OFFSET a with
  | some b => b.size - 2 * sizeofLong
  | none => 0

/-- The block whose footer sits immediately before address `a`, i.e. the
block `PREV` resolves to from a block starting at `a`. -/
def prevBlockOf : List Block → Nat → Nat → Option Block
  | [], _, _ => none
  | b :: rest, base, a =>
    if base + b.size = a then some b else prevBlockOf rest (base + b.size) a

/-- Write the allocation flag of the block starting at address `a`
(`ALLOC` / `FREE` in the source: header and footer updated together). -/
def setAllocAt : List Block → Nat → Nat → Bool → List Block
  | [], _, _, _ => []
  | b :: rest, base, a, v =>
    if base = a then { b with alloc := v } :: rest
    else b :: setAllocAt rest (base + b.size) a v

/-- `MERGE(b1, b2)` where `b1` starts at address `a` and `b2` is its
successor: the header of `b1` receives the plain sum of the two sizes (so
the merged block is unallocated) and the footer of `b2` copies it. -/
def mergeAt : List Block → Nat → Nat → List Block
  | [], _, _ => []
  | b :: rest, base, a =>
    if base = a then
      match rest with
      | [] => [b]
      | c :: rest' => ⟨b.size + c.size, false⟩ :: rest'
    else b :: mergeAt rest (base + b.size) a

/-- `split(block, size)`: `FORMAT(block, size)` then `FORMAT(NEXT(block),
total - size)`; both halves are formatted with the allocation bit clear. -/
def splitAtAddr : List Block → Nat → Nat → Nat → List Block
  | [], _, _, _ => []
  | b :: rest, base, a, sz =>
    if base = a then ⟨sz, false⟩ :: ⟨b.size - sz, false⟩ :: rest
    else b :: splitAtAddr rest (base + b.size) a sz

/-- The best-fit loop of `mm_malloc`.  `cands` is the free-list chain in
list order, each entry paired with its `INNERSIZE`; `acc` is the running
`min`.  The loop body keeps a candidate exactly when
`INNERSIZE(block) >= size && (min == NULL || INNERSIZE(block) < INNERSIZE(min))`. -/
def findMin (size : Nat) : List (Nat × Nat) → Option (Nat × Nat) → Option (Nat × Nat)
  | [], acc => acc
  | c :: rest, acc =>
    match acc with
    | none => if size ≤ c.2 then findMin size rest (some c) else findMin size rest none
    | some m =>
      if size ≤ c.2 ∧ c.2 < m.2 then findMin size rest (some c) else findMin size rest (some m)

/-- The fresh-extension path of `extend`: `mem_sbrk(ALIGN_FLOOR(size,
BLOCK_MIN))` followed by `FORMAT` (allocation bit clear; the caller marks
it allocated).  Returns the new state and the new block's address. -/
def extendFresh (h : Heap) (size : Nat) : Heap × Nat :=
  let bsize := ALIGN_FLOOR size BLOCK_MIN
  ({ blocks := h.blocks ++ [⟨bsize, false⟩], freeList := h.freeList },
   OFFSET + sumSize h.blocks)

/-- `extend(size)`: if the region's `UPPER` block is free, `mem_sbrk` just
`ALIGN(2*sizeof(long)+size-BLOCKSIZE(old))` further bytes and `MERGE` them
into that trailing block in place, returning its unchanged address;
otherwise obtain and format a fresh block.  The subtraction is signed in
the source; at every call site `BLOCKSIZE(old) < size + 2*sizeof(long)`
holds (the trailing block was too small to satisfy the request), which the
theorems record as a hypothesis.  `extend` is only invoked while the region
holds at least one block; the empty case is mapped to the fresh path. -/
def extend (h : Heap) (size : Nat) : Heap × Nat :=
  match h.blocks.getLast? with
  | some old =>
    if old.alloc then extendFresh h size
    else
      let newsize := ALIGN (2 * sizeofLong + size - old.size)
      ({ blocks := h.blocks.dropLast ++ [⟨old.size + newsize, false⟩],
         freeList := h.freeList },
       OFFSET + sumSize h.blocks.dropLast)
  | none => extendFresh h size

/-- `mm_malloc(size)`.  Returns the new state and the payload pointer
`INNER(block) = block + sizeof(long)` (or `NULL`).  The free-list scan is
bounded by `mem_heap_hi()` in the source; under the well-formedness
hypotheses every threaded address lies inside the region, so the bound
never cuts the scan short and the loop visits the whole chain. -/
def mm_malloc (h : Heap) (size : Nat) : Heap × Option Nat :=
  if size = 0 then (h, none)
  else
    match h.freeList with
    | [] =>
      let bsize := ALIGN_FLOOR size BLOCK_MIN
      let a := OFFSET + sumSize h.blocks
      ({ blocks := h.blocks ++ [⟨bsize, true⟩], freeList := [] },
       some (a + sizeofLong))
    | _ :: _ =>
      let cands := h.freeList.map fun x => (x, innerAt h.blocks x)
      match findMin size cands none with
      | none =>
        let p := extend h size
        ({ blocks := setAllocAt p.1.blocks OFFSET p.2 true,
           freeList := p.1.freeList.erase p.2 },
         some (p.2 + sizeofLong))
      | some c =>
        let a := c.1
        let fl1 := h.freeList.erase a
        let splitsize := ALIGN_FLOOR size BLOCK_MIN + 2 * sizeofLong
        if sizeAt h.blocks a - splitsize < BLOCK_MIN then
          ({ blocks := setAllocAt h.blocks OFFSET a true, freeList := fl1 },
           some (a + sizeofLong))
        else
          let blocks1 := splitAtAddr h.blocks OFFSET a splitsize
          ({ blocks := setAllocAt blocks1 OFFSET a true,
             freeList := (a + splitsize) :: fl1 },
           some (a + sizeofLong))

/-- `mm_free(ptr)`.  `OUTER` recovers the block address from the payload
pointer; a null pointer and a block whose allocation bit is already clear
are rejected with no state change.  Otherwise the block is marked free and
coalesced: a free successor is absorbed (the freed block inheriting its
free-list position), then a free predecessor absorbs the result; a block
with no free neighbor is pushed on the free-list head.  The
`PREV(block) >= LOWER && block != LOWER` guard in the source excludes the
first block (which would resolve as its own predecessor through the zero
offset bytes); in the embedding this is the case where no block ends at
`a`. -/
def mm_free (h : Heap) (ptr : Option Nat) : Heap :=
  match ptr with
  | none => h
  | some pa =>
    let a := pa - sizeofLong
    match blockAt h.blocks OFFSET a with
    | none => h
    | some b =>
      if b.alloc = false then h
      else
        let blocks1 := setAllocAt h.blocks OFFSET a false
        let nextA := a + b.size
        let nextFree :=
          match blockAt blocks1 OFFSET nextA with
          | some nb => !nb.alloc
          | none => false
        if nextFree then
          let blocks2 := mergeAt blocks1 OFFSET a
          let fl2 := h.freeList.map fun x => if x = nextA then a else x
          match prevBlockOf blocks2 OFFSET a with
          | some pb =>
            if pb.alloc then { blocks := blocks2, freeList := fl2 }
            else { blocks := mergeAt blocks2 OFFSET (a - pb.size), freeList := fl2.erase a }
          | none => { blocks := blocks2, freeList := fl2 }
        else
          match prevBlockOf blocks1 OFFSET a with
          | some pb =>
            if pb.alloc then { blocks := blocks1, freeList := a :: h.freeList }
            else { blocks := mergeAt blocks1 OFFSET (a - pb.size), freeList := h.freeList }
          | none => { blocks := blocks1, freeList := a :: h.freeList }

/-- Result of `mm_realloc` together with the source interval read by its
`memcpy(new, ptr, size)`: the copy reads `size` bytes starting at `ptr`,
before the old block is freed. -/
structure ReallocResult where
  heap : Heap
  ret : Option Nat
  srcReadLo : Nat
  srcReadLen : Nat
  deriving Repr, DecidableEq

/-- `mm_realloc(ptr, size)`: `mm_malloc(size)`, then `memcpy(new, ptr,
size)`, then `mm_free(ptr)`. -/
def mm_realloc (h : Heap) (ptr : Option Nat) (size : Nat) : ReallocResult :=
  let m := mm_malloc h size
  { heap := mm_free m.1 ptr
    ret := m.2
    srcReadLo := (match ptr with | some pa => pa | none => 0)
    srcReadLen := size }

/-- `mm_init`: empty region (after the `OFFSET` padding) and a null
`free_nodes_head`. -/
def initHeap : Heap := { blocks := [], freeList := [] }

/-- One external call to the allocator. -/
inductive Op where
  | malloc (n : Nat)
  | free (p : Option Nat)

/-- Execute one call, returning the new state and the returned pointer
(`none` for `free`). -/
def runOp (h : Heap) : Op → Heap × Option Nat
  | .malloc n => mm_malloc h n
  | .free p => (mm_free h p, none)

/-- Execute a call sequence from a state, collecting the returned
pointers. -/
def run : Heap → List Op → Heap × List (Option Nat)
  | h, [] => (h, [])
  | h, op :: rest =>
    let s := runOp h op
    let t := run s.1 rest
    (t.1, s.2 :: t.2)

/-- No two address-adjacent blocks are both free. -/
def noAdjB : List Block → Bool
  | [] => true
  | [_] => true
  | a :: b :: rest => (a.alloc || b.alloc) && noAdjB (b :: rest)

/-- Every free-list entry resolves to a block that is marked free. -/
def flOkB (h : Heap) : Bool :=
  h.freeList.all fun x =>
    match blockAt h.blocks OFFSET x with
    | some b => !b.alloc
    | none => false

/-- Every free block's address is threaded on the free list. -/
def freeListedB (fl : List Nat) : List Block → Nat → Bool
  | [], _ => true
  | b :: rest, base => (b.alloc || fl.contains base) && freeListedB fl rest (base + b.size)

/-- Well-formed allocator state: positive block sizes, eager coalescing
invariant, and a duplicate-free free list that threads exactly the free
blocks. -/
def WF (h : Heap) : Prop :=
  (∀ b ∈ h.blocks, 0 < b.size) ∧
  noAdjB h.blocks = true ∧
  h.freeList.Nodup ∧
  flOkB h = true ∧
  freeListedB h.freeList h.blocks OFFSET = true

instance (h : Heap) : Decidable (WF h) := by
  unfold WF
  exact inferInstance

/-! Arithmetic facts about the alignment macros. -/

theorem ALIGN_eq (n : Nat) : ALIGN n = 8 * ((n + 7) / 8) := by
  unfold ALIGN
  omega

theorem ALIGN_mod (n : Nat) : ALIGN n % 8 = 0 := by
  rw [ALIGN_eq]
  omega

theorem le_ALIGN (n : Nat) : n ≤ ALIGN n := by
  unfold ALIGN
  omega

theorem ALIGN_lt (n : Nat) : ALIGN n < n + 8 := by
  unfold ALIGN
  omega

theorem ALIGN_FLOOR_mod (size m : Nat) (hm : m % 8 = 0) :
    ALIGN_FLOOR size m % 8 = 0 := by
  unfold ALIGN_FLOOR sizeofLong
  have h1 := ALIGN_mod size
  rcases Nat.le_total (ALIGN size) m with h | h
  · rw [Nat.max_eq_right h]; omega
  · rw [Nat.max_eq_left h]; omega

theorem ALIGN_FLOOR_ge (size m : Nat) : ALIGN size + 2 * sizeofLong ≤ ALIGN_FLOOR size m := by
  unfold ALIGN_FLOOR
  have := Nat.le_max_left (ALIGN size) m
  omega

theorem ALIGN_FLOOR_pos (size m : Nat) : 0 < ALIGN_FLOOR size m := by
  unfold ALIGN_FLOOR sizeofLong
  omega

/-- Modelled from the spec's words (C7): the minimum total block size is
"requested bytes rounded up to the alignment unit, plus header/footer
overhead, floored at the minimum block size". -/
def specMinBlockSize (size : Nat) : Nat := max (ALIGN size + 2 * sizeofLong) BLOCK_MIN

/-- The computed block size as a single closed form: the aligned request
plus overhead, floored at `BLOCK_MIN + 2*sizeof(long) = 24`. -/
theorem ALIGN_FLOOR_closed (size : Nat) :
    ALIGN_FLOOR size BLOCK_MIN = max (ALIGN size + 2 * sizeofLong) (BLOCK_MIN + 2 * sizeofLong) := by
  unfold ALIGN_FLOOR
  rcases Nat.le_total (ALIGN size) BLOCK_MIN with h | h
  · rw [Nat.max_eq_right h, Nat.max_eq_right (by omega)]
  · rw [Nat.max_eq_left h, Nat.max_eq_left (by omega)]

/-! Claim C7. -/

/-- C7 counterexample: for a 1-byte request the code computes a total block
size of 24 bytes, not the 16 bytes given by the spec's formula "aligned
request plus overhead, floored at the minimum block size". -/
theorem blocksize_formula_counterexample :
    ¬ ALIGN_FLOOR 1 BLOCK_MIN = specMinBlockSize 1 := by decide

/-- C7 (amended): the minimum total block size that allocate computes is
the requested bytes rounded up to the 8-byte alignment unit with the
*aligned request* floored at the minimum block size before the fixed
header/footer overhead is added — equivalently, the aligned request plus
overhead, floored at minimum-block-size-plus-overhead (24 bytes).  The
growth path of `mm_malloc` formats a block of exactly this size. -/
theorem blocksize_formula_amended :
    (∀ size, ALIGN_FLOOR size BLOCK_MIN =
       max (ALIGN size + 2 * sizeofLong) (BLOCK_MIN + 2 * sizeofLong)) ∧
    (∀ (h : Heap) size, h.freeList = [] → size ≠ 0 →
       (mm_malloc h size).1.blocks.getLast? =
         some ⟨max (ALIGN size + 2 * sizeofLong) (BLOCK_MIN + 2 * sizeofLong), true⟩) := by
  refine ⟨ALIGN_FLOOR_closed, ?_⟩
  intro h size hfl hs
  simp [mm_malloc, hs, hfl, List.getLast?_concat, ALIGN_FLOOR_closed]

/-- Witness for C7's amended theorem at a concrete input. -/
theorem blocksize_formula_amended_witness :
    (mm_malloc initHeap 1).1.blocks.getLast? = some ⟨24, true⟩ := by
  have hthm := blocksize_formula_amended.2 initHeap 1 rfl (by decide)
  rw [hthm]
  decide

/-! Structural lemmas about the address walk over the block list. -/

theorem sumSize_nil : sumSize [] = 0 := rfl

theorem sumSize_cons (b : Block) (l : List Block) :
    sumSize (b :: l) = b.size + sumSize l := by
  simp [sumSize]

theorem sumSize_append (l₁ l₂ : List Block) :
    sumSize (l₁ ++ l₂) = sumSize l₁ + sumSize l₂ := by
  simp [sumSize]

theorem blockAt_append_some {l₁ : List Block} {base a : Nat} {b : Block}
    (h : blockAt l₁ base a = some b) (l₂ : List Block) :
    blockAt (l₁ ++ l₂) base a = some b := by
  induction l₁ generalizing base with
  | nil => cases h
  | cons c rest ih =>
    rw [List.cons_append]
    by_cases hb : base = a
    · simp only [blockAt, if_pos hb] at h ⊢
      exact h
    · simp only [blockAt, if_neg hb] at h ⊢
      exact ih h

theorem blockAt_append_none {l₁ : List Block} {base a : Nat}
    (h : blockAt l₁ base a = none) (l₂ : List Block) :
    blockAt (l₁ ++ l₂) base a = blockAt l₂ (base + sumSize l₁) a := by
  induction l₁ generalizing base with
  | nil => simp [blockAt, sumSize]
  | cons c rest ih =>
    rw [List.cons_append]
    by_cases hb : base = a
    · simp only [blockAt, if_pos hb] at h
      cases h
    · simp only [blockAt, if_neg hb] at h ⊢
      rw [ih h]
      congr 1
      rw [sumSize_cons]
      omega

theorem blockAt_mem {l : List Block} {base a : Nat} {b : Block}
    (h : blockAt l base a = some b) : b ∈ l := by
  induction l generalizing base with
  | nil => cases h
  | cons c rest ih =>
    by_cases hb : base = a
    · simp only [blockAt, if_pos hb] at h
      injection h with h'
      simp [h']
    · simp only [blockAt, if_neg hb] at h
      simp [ih h]

theorem blockAt_le {l : List Block} {base a : Nat} {b : Block}
    (h : blockAt l base a = some b) : base ≤ a := by
  induction l generalizing base with
  | nil => cases h
  | cons c rest ih =>
    by_cases hb : base = a
    · omega
    · simp only [blockAt, if_neg hb] at h
      have := ih h
      omega

theorem blockAt_end_le {l : List Block} {base a : Nat} {b : Block}
    (h : blockAt l base a = some b) : a + b.size ≤ base + sumSize l := by
  induction l generalizing base with
  | nil => cases h
  | cons c rest ih =>
    rw [sumSize_cons]
    by_cases hb : base = a
    · simp only [blockAt, if_pos hb] at h
      injection h with h'
      subst h'
      omega
    · simp only [blockAt, if_neg hb] at h
      have := ih h
      omega

theorem blockAt_none_of_ge_end {l : List Block} {base a : Nat}
    (hpos : ∀ b ∈ l, 0 < b.size) (h : base + sumSize l ≤ a) :
    blockAt l base a = none := by
  induction l generalizing base with
  | nil => rfl
  | cons c rest ih =>
    rw [sumSize_cons] at h
    have hc : 0 < c.size := hpos c (by simp)
    have hb : ¬ base = a := by omega
    simp only [blockAt, if_neg hb]
    exact ih (fun x hx => hpos x (by simp [hx])) (by omega)

theorem blockAt_decomp {l : List Block} {base a : Nat} {b : Block}
    (h : blockAt l base a = some b) :
    ∃ pre post, l = pre ++ b :: post ∧ a = base + sumSize pre := by
  induction l generalizing base with
  | nil => cases h
  | cons c rest ih =>
    by_cases hb : base = a
    · simp only [blockAt, if_pos hb] at h
      injection h with h'
      subst h'
      exact ⟨[], rest, rfl, by simp [sumSize, hb]⟩
    · simp only [blockAt, if_neg hb] at h
      obtain ⟨pre, post, hdec, ha⟩ := ih h
      refine ⟨c :: pre, post, by simp [hdec], ?_⟩
      rw [sumSize_cons]
      omega

theorem blockAt_at {pre : List Block} (b : Block) (post : List Block) {base : Nat}
    (hpos : ∀ x ∈ pre, 0 < x.size) :
    blockAt (pre ++ b :: post) base (base + sumSize pre) = some b := by
  rw [blockAt_append_none (blockAt_none_of_ge_end hpos (Nat.le_refl _)) _]
  simp [blockAt]

theorem setAllocAt_at {pre : List Block} (b : Block) (post : List Block) {base : Nat}
    (v : Bool) (hpos : ∀ x ∈ pre, 0 < x.size) :
    setAllocAt (pre ++ b :: post) base (base + sumSize pre) v =
      pre ++ { b with alloc := v } :: post := by
  induction pre generalizing base with
  | nil => simp [setAllocAt, sumSize]
  | cons c rest ih =>
    have hc : 0 < c.size := hpos c (by simp)
    have hb : ¬ base = base + sumSize (c :: rest) := by
      rw [sumSize_cons]
      omega
    rw [List.cons_append]
    simp only [setAllocAt, if_neg hb]
    have harg : base + sumSize (c :: rest) = (base + c.size) + sumSize rest := by
      rw [sumSize_cons]
      omega
    rw [harg, ih (fun x hx => hpos x (by simp [hx]))]
    simp

theorem mergeAt_at {pre : List Block} (b c : Block) (post : List Block) {base : Nat}
    (hpos : ∀ x ∈ pre, 0 < x.size) :
    mergeAt (pre ++ b :: c :: post) base (base + sumSize pre) =
      pre ++ ⟨b.size + c.size, false⟩ :: post := by
  induction pre generalizing base with
  | nil => simp [mergeAt, sumSize]
  | cons d rest ih =>
    have hd : 0 < d.size := hpos d (by simp)
    have hb : ¬ base = base + sumSize (d :: rest) := by
      rw [sumSize_cons]
      omega
    rw [List.cons_append]
    simp only [mergeAt, if_neg hb]
    have harg : base + sumSize (d :: rest) = (base + d.size) + sumSize rest := by
      rw [sumSize_cons]
      omega
    rw [harg, ih (fun x hx => hpos x (by simp [hx]))]
    simp

theorem splitAtAddr_at {pre : List Block} (b : Block) (post : List Block) {base : Nat}
    (sz : Nat) (hpos : ∀ x ∈ pre, 0 < x.size) :
    splitAtAddr (pre ++ b :: post) base (base + sumSize pre) sz =
      pre ++ ⟨sz, false⟩ :: ⟨b.size - sz, false⟩ :: post := by
  induction pre generalizing base with
  | nil => simp [splitAtAddr, sumSize]
  | cons c rest ih =>
    have hc : 0 < c.size := hpos c (by simp)
    have hb : ¬ base = base + sumSize (c :: rest) := by
      rw [sumSize_cons]
      omega
    rw [List.cons_append]
    simp only [splitAtAddr, if_neg hb]
    have harg : base + sumSize (c :: rest) = (base + c.size) + sumSize rest := by
      rw [sumSize_cons]
      omega
    rw [harg, ih (fun x hx => hpos x (by simp [hx]))]
    simp

theorem prevBlockOf_at {pre : List Block} (q : Block) (rest : List Block) {base : Nat}
    (hq : 0 < q.size) :
    prevBlockOf (pre ++ q :: rest) base (base + sumSize pre + q.size) = some q := by
  induction pre generalizing base with
  | nil => simp [prevBlockOf, sumSize]
  | cons c pre' ih =>
    have hb : ¬ base + c.size = base + sumSize (c :: pre') + q.size := by
      rw [sumSize_cons]
      omega
    rw [List.cons_append]
    simp only [prevBlockOf, if_neg hb]
    have harg : base + sumSize (c :: pre') + q.size = (base + c.size) + sumSize pre' + q.size := by
      rw [sumSize_cons]
      omega
    rw [harg]
    exact ih

theorem prevBlockOf_none_of_le {l : List Block} {base a : Nat}
    (hpos : ∀ b ∈ l, 0 < b.size) (h : a ≤ base) :
    prevBlockOf l base a = none := by
  induction l generalizing base with
  | nil => rfl
  | cons c rest ih =>
    have hc : 0 < c.size := hpos c (by simp)
    have hb : ¬ base + c.size = a := by omega
    simp only [prevBlockOf, if_neg hb]
    exact ih (fun x hx => hpos x (by simp [hx])) (by omega)

theorem freeListedB_append (fl : List Nat) (l₁ l₂ : List Block) (base : Nat) :
    freeListedB fl (l₁ ++ l₂) base =
      (freeListedB fl l₁ base && freeListedB fl l₂ (base + sumSize l₁)) := by
  induction l₁ generalizing base with
  | nil => simp [freeListedB, sumSize]
  | cons c rest ih =>
    rw [List.cons_append]
    simp only [freeListedB, ih, sumSize_cons, Bool.and_assoc, Nat.add_assoc]

theorem noAdjB_chain (l : List Block) :
    noAdjB l = true ↔ List.Chain' (fun x y => x.alloc = true ∨ y.alloc = true) l := by
  induction l with
  | nil => simp [noAdjB]
  | cons a rest ih =>
    cases rest with
    | nil => simp [noAdjB]
    | cons b rest' =>
      rw [List.chain'_cons, ← ih]
      simp [noAdjB, Bool.and_eq_true, Bool.or_eq_true]

theorem contains_iff_mem (l : List Nat) (a : Nat) : l.contains a = true ↔ a ∈ l := by
  simp [List.contains, List.elem_iff]

/-! Lemmas about the best-fit loop. -/

theorem findMin_acc_stay (size : Nat) (l : List (Nat × Nat)) (m : Nat × Nat)
    (hmin : ∀ d ∈ l, size ≤ d.2 → m.2 ≤ d.2) :
    findMin size l (some m) = some m := by
  induction l with
  | nil => rfl
  | cons c rest ih =>
    have hc : ¬(size ≤ c.2 ∧ c.2 < m.2) := by
      rintro ⟨h1, h2⟩
      have := hmin c (by simp) h1
      omega
    simp only [findMin, if_neg hc]
    exact ih fun d hd => hmin d (by simp [hd])

theorem findMin_some_of_acc (size : Nat) (l : List (Nat × Nat)) (m : Nat × Nat) :
    ∃ r, findMin size l (some m) = some r ∧ r.2 ≤ m.2 ∧ (r = m ∨ (r ∈ l ∧ size ≤ r.2)) := by
  induction l generalizing m with
  | nil => exact ⟨m, rfl, le_refl _, Or.inl rfl⟩
  | cons c rest ih =>
    by_cases hc : size ≤ c.2 ∧ c.2 < m.2
    · obtain ⟨r, hr, hle, hmem⟩ := ih c
      refine ⟨r, by simp only [findMin, if_pos hc]; exact hr, by omega, Or.inr ?_⟩
      rcases hmem with rfl | ⟨h1, h2⟩
      · exact ⟨by simp, hc.1⟩
      · exact ⟨by simp [h1], h2⟩
    · obtain ⟨r, hr, hle, hmem⟩ := ih m
      refine ⟨r, by simp only [findMin, if_neg hc]; exact hr, hle, ?_⟩
      rcases hmem with rfl | ⟨h1, h2⟩
      · exact Or.inl rfl
      · exact Or.inr ⟨by simp [h1], h2⟩

theorem findMin_qual (size : Nat) (l : List (Nat × Nat)) :
    ∀ acc r, (∀ m, acc = some m → size ≤ m.2) → findMin size l acc = some r → size ≤ r.2 := by
  induction l with
  | nil =>
    intro acc r hacc h
    exact hacc r h
  | cons c rest ih =>
    intro acc r hacc h
    rcases acc with _ | m
    · by_cases hc : size ≤ c.2
      · refine ih (some c) r ?_ (by simpa only [findMin, if_pos hc] using h)
        rintro m hm
        injection hm with hm'
        subst hm'
        exact hc
      · exact ih none r (fun m hm => by cases hm) (by simpa only [findMin, if_neg hc] using h)
    · by_cases hc : size ≤ c.2 ∧ c.2 < m.2
      · refine ih (some c) r ?_ (by simpa only [findMin, if_pos hc] using h)
        rintro m' hm'
        injection hm' with hm''
        subst hm''
        exact hc.1
      · refine ih (some m) r ?_ (by simpa only [findMin, if_neg hc] using h)
        rintro m' hm'
        injection hm' with hm''
        subst hm''
        exact hacc m rfl

theorem findMin_min (size : Nat) (l : List (Nat × Nat)) :
    ∀ acc r, findMin size l acc = some r →
      (∀ m, acc = some m → r.2 ≤ m.2) ∧ (∀ d ∈ l, size ≤ d.2 → r.2 ≤ d.2) := by
  induction l with
  | nil =>
    intro acc r h
    refine ⟨?_, by simp⟩
    intro m hm
    rw [hm] at h
    injection h with h'
    subst h'
    exact Nat.le_refl _
  | cons c rest ih =>
    intro acc r h
    rcases acc with _ | m
    · by_cases hc : size ≤ c.2
      · obtain ⟨h1, h2⟩ := ih (some c) r (by simpa only [findMin, if_pos hc] using h)
        refine ⟨(fun m hm => by cases hm), ?_⟩
        intro d hd hq
        rcases List.mem_cons.mp hd with rfl | hd'
        · exact h1 d rfl
        · exact h2 d hd' hq
      · obtain ⟨h1, h2⟩ := ih none r (by simpa only [findMin, if_neg hc] using h)
        refine ⟨(fun m hm => by cases hm), ?_⟩
        intro d hd hq
        rcases List.mem_cons.mp hd with rfl | hd'
        · omega
        · exact h2 d hd' hq
    · by_cases hc : size ≤ c.2 ∧ c.2 < m.2
      · obtain ⟨h1, h2⟩ := ih (some c) r (by simpa only [findMin, if_pos hc] using h)
        have hrc := h1 c rfl
        refine ⟨?_, ?_⟩
        · rintro m' hm'
          injection hm' with hm''
          subst hm''
          have := hc.2
          omega
        · intro d hd hq
          rcases List.mem_cons.mp hd with rfl | hd'
          · exact hrc
          · exact h2 d hd' hq
      · obtain ⟨h1, h2⟩ := ih (some m) r (by simpa only [findMin, if_neg hc] using h)
        have hrm := h1 m rfl
        refine ⟨?_, ?_⟩
        · rintro m' hm'
          injection hm' with hm''
          subst hm''
          exact hrm
        · intro d hd hq
          rcases List.mem_cons.mp hd with rfl | hd'
          · have : ¬ d.2 < m.2 := fun hlt => hc ⟨hq, hlt⟩
            omega
          · exact h2 d hd' hq

theorem findMin_none_iff (size : Nat) (l : List (Nat × Nat)) :
    findMin size l none = none ↔ ∀ d ∈ l, d.2 < size := by
  induction l with
  | nil => simp [findMin]
  | cons c rest ih =>
    by_cases hc : size ≤ c.2
    · obtain ⟨r, hr, -, -⟩ := findMin_some_of_acc size rest c
      have hred : findMin size (c :: rest) none = some r := by
        simp only [findMin, if_pos hc]
        exact hr
      rw [hred]
      constructor
      · intro h
        cases h
      · intro hall
        exact absurd (hall c (by simp)) (by omega)
    · have hred : findMin size (c :: rest) none = findMin size rest none := by
        simp only [findMin, if_neg hc]
      rw [hred, ih]
      constructor
      · intro hall d hd
        rcases List.mem_cons.mp hd with rfl | hd'
        · omega
        · exact hall d hd'
      · intro hall d hd
        exact hall d (by simp [hd])

theorem findMin_first_acc (size : Nat) (l : List (Nat × Nat)) :
    ∀ m r, findMin size l (some m) = some r →
      r = m ∨ ∃ pre suf, l = pre ++ r :: suf ∧ r.2 < m.2 ∧
        ∀ d ∈ pre, ¬(size ≤ d.2 ∧ d.2 ≤ r.2) := by
  induction l with
  | nil =>
    intro m r h
    injection h with h'
    exact Or.inl h'.symm
  | cons c rest ih =>
    intro m r h
    by_cases hc : size ≤ c.2 ∧ c.2 < m.2
    · have h' : findMin size rest (some c) = some r := by
        simpa only [findMin, if_pos hc] using h
      rcases ih c r h' with rfl | ⟨pre, suf, hdec, hlt, hpre⟩
      · exact Or.inr ⟨[], rest, rfl, hc.2, by simp⟩
      · refine Or.inr ⟨c :: pre, suf, by simp [hdec], by omega, ?_⟩
        intro d hd
        rcases List.mem_cons.mp hd with rfl | hd'
        · rintro ⟨hq, hle⟩
          omega
        · exact hpre d hd'
    · have h' : findMin size rest (some m) = some r := by
        simpa only [findMin, if_neg hc] using h
      rcases ih m r h' with rfl | ⟨pre, suf, hdec, hlt, hpre⟩
      · exact Or.inl rfl
      · refine Or.inr ⟨c :: pre, suf, by simp [hdec], hlt, ?_⟩
        intro d hd
        rcases List.mem_cons.mp hd with rfl | hd'
        · rintro ⟨hq, hle⟩
          exact hc ⟨hq, by omega⟩
        · exact hpre d hd'

theorem findMin_first (size : Nat) (l : List (Nat × Nat)) (r : Nat × Nat)
    (h : findMin size l none = some r) :
    ∃ pre suf, l = pre ++ r :: suf ∧ ∀ d ∈ pre, ¬(size ≤ d.2 ∧ d.2 ≤ r.2) := by
  induction l with
  | nil => cases h
  | cons c rest ih =>
    by_cases hc : size ≤ c.2
    · have h' : findMin size rest (some c) = some r := by
        simpa only [findMin, if_pos hc] using h
      rcases findMin_first_acc size rest c r h' with rfl | ⟨pre, suf, hdec, hlt, hpre⟩
      · exact ⟨[], rest, rfl, by simp⟩
      · refine ⟨c :: pre, suf, by simp [hdec], ?_⟩
        intro d hd
        rcases List.mem_cons.mp hd with rfl | hd'
        · rintro ⟨hq, hle⟩
          omega
        · exact hpre d hd'
    · have h' : findMin size rest none = some r := by
        simpa only [findMin, if_neg hc] using h
      obtain ⟨pre, suf, hdec, hpre⟩ := ih h'
      refine ⟨c :: pre, suf, by simp [hdec], ?_⟩
      intro d hd
      rcases List.mem_cons.mp hd with rfl | hd'
      · rintro ⟨hq, -⟩
        exact hc hq
      · exact hpre d hd'

theorem findMin_head (size : Nat) (c : Nat × Nat) (rest : List (Nat × Nat))
    (hq : size ≤ c.2) (hmin : ∀ d ∈ rest, size ≤ d.2 → c.2 ≤ d.2) :
    findMin size (c :: rest) none = some c := by
  simp only [findMin, if_pos hq]
  exact findMin_acc_stay size rest c hmin

/-! Claim C3. -/

/-- C3: the best-fit loop of `mm_malloc`, run over the free-list chain in
list order (each candidate paired with its usable payload), selects a
candidate with the smallest usable payload that is still at least the
requested size, breaking ties in favor of the candidate encountered first
(no earlier candidate both qualifies and has payload at most the chosen
one's), and selects none exactly when no candidate qualifies. -/
theorem best_fit_search_correct (size : Nat) (cands : List (Nat × Nat)) :
    (∀ r, findMin size cands none = some r →
       r ∈ cands ∧ size ≤ r.2 ∧
       (∀ d ∈ cands, size ≤ d.2 → r.2 ≤ d.2) ∧
       ∃ pre suf, cands = pre ++ r :: suf ∧ ∀ d ∈ pre, ¬(size ≤ d.2 ∧ d.2 ≤ r.2)) ∧
    (findMin size cands none = none ↔ ∀ d ∈ cands, d.2 < size) := by
  constructor
  · intro r hr
    obtain ⟨pre, suf, hdec, hpre⟩ := findMin_first size cands r hr
    refine ⟨by rw [hdec]; simp, ?_, (findMin_min size cands none r hr).2, pre, suf, hdec, hpre⟩
    exact findMin_qual size cands none r (by rintro m hm; cases hm) hr
  · exact findMin_none_iff size cands

/-- Witness for C3: among payloads 16, 24, 16 with request 8 the first
16-payload candidate is selected. -/
theorem best_fit_search_correct_witness :
    (10, 16) ∈ [(10, 16), (20, 24), (30, 16)] ∧ (8 : Nat) ≤ 16 := by
  have hthm := (best_fit_search_correct 8 [(10, 16), (20, 24), (30, 16)]).1 (10, 16) (by decide)
  exact ⟨hthm.1, hthm.2.1⟩

/-! Claim C10. -/

/-- C10: `mm_realloc(p, 0)` returns a null pointer and leaves the state
exactly as `mm_free(p)` would, because `mm_malloc(0)` yields null and the
`memcpy` length is zero. -/
theorem realloc_zero_frees_and_returns_null (h : Heap) (pa : Nat) :
    (mm_realloc h (some pa) 0).ret = none ∧
    (mm_realloc h (some pa) 0).heap = mm_free h (some pa) ∧
    (mm_realloc h (some pa) 0).srcReadLen = 0 ∧
    (mm_malloc h 0).2 = none :=
  ⟨rfl, rfl, rfl, rfl⟩

/-! Claim C1. -/

/-- Heap holding one allocated block of 24 bytes (16 usable), as produced
by `allocate(16)` from a fresh region. -/
def reallocDemoHeap : Heap := (run initHeap [Op.malloc 16]).1

/-- C1 exercised at the failing input: `allocate(16)` returns payload 8
with 16 usable bytes, and `reallocate(8, 24)` performs
`memcpy(new, 8, 24)` — the copy reads 24 bytes from the old payload, 8
bytes past its 16-byte usable size. -/
theorem realloc_copy_overruns_source :
    (run initHeap [Op.malloc 16]).2 = [some 8] ∧
    innerAt reallocDemoHeap.blocks (8 - sizeofLong) = 16 ∧
    (mm_realloc reallocDemoHeap (some 8) 24).srcReadLo = 8 ∧
    (mm_realloc reallocDemoHeap (some 8) 24).srcReadLen = 24 ∧
    innerAt reallocDemoHeap.blocks (8 - sizeofLong) <
      (mm_realloc reallocDemoHeap (some 8) 24).srcReadLen := by
  decide

/-! Claim C5. -/

/-- C5: freeing a null pointer is a no-op, and freeing a payload pointer
whose block already has a clear allocation bit is rejected with the heap
and the free list left unchanged. -/
theorem free_null_or_double_free_noop (h : Heap) :
    mm_free h none = h ∧
    ∀ pa b, blockAt h.blocks OFFSET (pa - sizeofLong) = some b → b.alloc = false →
      mm_free h (some pa) = h := by
  refine ⟨rfl, ?_⟩
  intro pa b hb hfree
  simp [mm_free, hb, hfree]

/-- Witness for C5 at a concrete one-block heap with a free block. -/
theorem free_null_or_double_free_noop_witness :
    mm_free ⟨[⟨16, false⟩], [4]⟩ none = ⟨[⟨16, false⟩], [4]⟩ ∧
    mm_free ⟨[⟨16, false⟩], [4]⟩ (some 8) = ⟨[⟨16, false⟩], [4]⟩ :=
  ⟨(free_null_or_double_free_noop ⟨[⟨16, false⟩], [4]⟩).1,
   (free_null_or_double_free_noop ⟨[⟨16, false⟩], [4]⟩).2 8 ⟨16, false⟩ (by decide) rfl⟩

/-! Claim C6. -/

/-- C6: when the region's last block is free, `extend` grows it in place —
it obtains just the aligned shortfall from the growth provider, the block
keeps its starting address, and (whenever the trailing block was indeed too
small, as at every call site) the result is at least the needed total and
exceeds it by less than one alignment unit; in every other case `extend`
obtains a fresh block-sized extension formatted as a single new block at
the end of the region. -/
theorem extend_grow_spec (h : Heap) (size : Nat) :
    (h.blocks = [] →
       extend h size =
         ({ blocks := [⟨ALIGN_FLOOR size BLOCK_MIN, false⟩], freeList := h.freeList },
          OFFSET)) ∧
    (∀ init old, h.blocks = init ++ [old] → old.alloc = true →
       extend h size =
         ({ blocks := h.blocks ++ [⟨ALIGN_FLOOR size BLOCK_MIN, false⟩],
            freeList := h.freeList },
          OFFSET + sumSize h.blocks)) ∧
    (∀ init old, h.blocks = init ++ [old] → old.alloc = false →
       extend h size =
         ({ blocks := init ++ [⟨old.size + ALIGN (2 * sizeofLong + size - old.size), false⟩],
            freeList := h.freeList },
          OFFSET + sumSize init) ∧
       (old.size < size + 2 * sizeofLong →
          size + 2 * sizeofLong ≤ old.size + ALIGN (2 * sizeofLong + size - old.size) ∧
          old.size + ALIGN (2 * sizeofLong + size - old.size) <
            size + 2 * sizeofLong + ALIGNMENT)) := by
  refine ⟨?_, ?_, ?_⟩
  · intro hnil
    simp [extend, hnil, extendFresh, sumSize]
  · intro init old hdec halloc
    simp [extend, hdec, List.getLast?_concat, halloc, extendFresh]
  · intro init old hdec hfree
    constructor
    · simp [extend, hdec, List.getLast?_concat, hfree, List.dropLast_concat]
    · intro hsmall
      have h1 := le_ALIGN (2 * sizeofLong + size - old.size)
      have h2 := ALIGN_lt (2 * sizeofLong + size - old.size)
      unfold sizeofLong ALIGNMENT at *
      omega

/-! Evaluation lemmas for the branches of `extend` and `mm_malloc`. -/

theorem extend_eval_nil (h : Heap) (size : Nat) (hnil : h.blocks = []) :
    extend h size =
      ({ blocks := [⟨ALIGN_FLOOR size BLOCK_MIN, false⟩], freeList := h.freeList }, OFFSET) := by
  simp [extend, hnil, extendFresh, sumSize]

theorem extend_eval_alloc (h : Heap) (size : Nat) (init : List Block) (old : Block)
    (hdec : h.blocks = init ++ [old]) (halloc : old.alloc = true) :
    extend h size =
      ({ blocks := h.blocks ++ [⟨ALIGN_FLOOR size BLOCK_MIN, false⟩], freeList := h.freeList },
       OFFSET + sumSize h.blocks) := by
  simp [extend, hdec, List.getLast?_concat, halloc, extendFresh]

theorem extend_eval_free (h : Heap) (size : Nat) (init : List Block) (old : Block)
    (hdec : h.blocks = init ++ [old]) (hfree : old.alloc = false) :
    extend h size =
      ({ blocks := init ++ [⟨old.size + ALIGN (2 * sizeofLong + size - old.size), false⟩],
         freeList := h.freeList },
       OFFSET + sumSize init) := by
  simp [extend, hdec, List.getLast?_concat, hfree, List.dropLast_concat]

theorem mm_malloc_emptyfl_eval (h : Heap) (size : Nat) (hs : size ≠ 0)
    (hfl : h.freeList = []) :
    mm_malloc h size =
      ({ blocks := h.blocks ++ [⟨ALIGN_FLOOR size BLOCK_MIN, true⟩], freeList := [] },
       some (OFFSET + sumSize h.blocks + sizeofLong)) := by
  simp [mm_malloc, hs, hfl]

theorem mm_malloc_fit_eval (h : Heap) (size a s f : Nat) (fl' : List Nat)
    (hs : size ≠ 0) (hfl : h.freeList = f :: fl')
    (hfind : findMin size (h.freeList.map fun x => (x, innerAt h.blocks x)) none = some (a, s)) :
    mm_malloc h size =
      if sizeAt h.blocks a - (ALIGN_FLOOR size BLOCK_MIN + 2 * sizeofLong) < BLOCK_MIN then
        ({ blocks := setAllocAt h.blocks OFFSET a true, freeList := h.freeList.erase a },
         some (a + sizeofLong))
      else
        ({ blocks := setAllocAt (splitAtAddr h.blocks OFFSET a
              (ALIGN_FLOOR size BLOCK_MIN + 2 * sizeofLong)) OFFSET a true,
           freeList := (a + (ALIGN_FLOOR size BLOCK_MIN + 2 * sizeofLong)) :: h.freeList.erase a },
         some (a + sizeofLong)) := by
  rw [hfl] at hfind
  simp only [mm_malloc, if_neg hs, hfl]
  rw [hfind]

theorem mm_malloc_nofit_eval (h : Heap) (size f : Nat) (fl' : List Nat)
    (hs : size ≠ 0) (hfl : h.freeList = f :: fl')
    (hfind : findMin size (h.freeList.map fun x => (x, innerAt h.blocks x)) none = none) :
    mm_malloc h size =
      ({ blocks := setAllocAt (extend h size).1.blocks OFFSET (extend h size).2 true,
         freeList := (extend h size).1.freeList.erase (extend h size).2 },
       some ((extend h size).2 + sizeofLong)) := by
  rw [hfl] at hfind
  simp only [mm_malloc, if_neg hs, hfl]
  rw [hfind]

/-! Alignment invariant: block sizes stay multiples of 8 and free-list
addresses stay congruent to `OFFSET`, so every payload pointer is 8-byte
aligned. -/

def Inv (h : Heap) : Prop :=
  (∀ b ∈ h.blocks, b.size % 8 = 0) ∧ (∀ x ∈ h.freeList, x % 8 = OFFSET % 8)

theorem sumSize_mod {l : List Block} (hm : ∀ x ∈ l, x.size % 8 = 0) : sumSize l % 8 = 0 := by
  induction l with
  | nil => rfl
  | cons c rest ih =>
    rw [sumSize_cons]
    have h1 := hm c (by simp)
    have h2 := ih fun x hx => hm x (by simp [hx])
    omega

theorem blockAt_addr_mod {l : List Block} {base a : Nat} {b : Block}
    (hm : ∀ x ∈ l, x.size % 8 = 0) (h : blockAt l base a = some b) : a % 8 = base % 8 := by
  induction l generalizing base with
  | nil => cases h
  | cons c rest ih =>
    by_cases hb : base = a
    · rw [hb]
    · simp only [blockAt, if_neg hb] at h
      have h1 := hm c (by simp)
      have h2 := ih (fun x hx => hm x (by simp [hx])) h
      omega

theorem setAllocAt_mod {l : List Block} {base a : Nat} {v : Bool}
    (hm : ∀ x ∈ l, x.size % 8 = 0) :
    ∀ x ∈ setAllocAt l base a v, x.size % 8 = 0 := by
  induction l generalizing base with
  | nil => simp [setAllocAt]
  | cons c rest ih =>
    intro x hx
    by_cases hb : base = a
    · simp only [setAllocAt, if_pos hb] at hx
      rcases List.mem_cons.mp hx with rfl | hx'
      · exact hm c (by simp)
      · exact hm x (by simp [hx'])
    · simp only [setAllocAt, if_neg hb] at hx
      rcases List.mem_cons.mp hx with rfl | hx'
      · exact hm x (by simp)
      · exact ih (fun y hy => hm y (by simp [hy])) x hx'

theorem mergeAt_mod {l : List Block} {base a : Nat}
    (hm : ∀ x ∈ l, x.size % 8 = 0) :
    ∀ x ∈ mergeAt l base a, x.size % 8 = 0 := by
  induction l generalizing base with
  | nil => simp [mergeAt]
  | cons c rest ih =>
    intro x hx
    by_cases hb : base = a
    · simp only [mergeAt, if_pos hb] at hx
      cases rest with
      | nil =>
        rcases List.mem_singleton.mp hx with rfl
        exact hm x (by simp)
      | cons d rest' =>
        rcases List.mem_cons.mp hx with rfl | hx'
        · have h1 := hm c (by simp)
          have h2 := hm d (by simp)
          simp only []
          omega
        · exact hm x (by simp [hx'])
    · simp only [mergeAt, if_neg hb] at hx
      rcases List.mem_cons.mp hx with rfl | hx'
      · exact hm x (by simp)
      · exact ih (fun y hy => hm y (by simp [hy])) x hx'

theorem splitAtAddr_mod {l : List Block} {base a sz : Nat}
    (hm : ∀ x ∈ l, x.size % 8 = 0) (hsz : sz % 8 = 0) :
    ∀ x ∈ splitAtAddr l base a sz, x.size % 8 = 0 := by
  induction l generalizing base with
  | nil => simp [splitAtAddr]
  | cons c rest ih =>
    intro x hx
    by_cases hb : base = a
    · simp only [splitAtAddr, if_pos hb] at hx
      rcases List.mem_cons.mp hx with rfl | hx'
      · exact hsz
      · rcases List.mem_cons.mp hx' with rfl | hx''
        · have h1 := hm c (by simp)
          simp only []
          omega
        · exact hm x (by simp [hx''])
    · simp only [splitAtAddr, if_neg hb] at hx
      rcases List.mem_cons.mp hx with rfl | hx'
      · exact hm x (by simp)
      · exact ih (fun y hy => hm y (by simp [hy])) x hx'

theorem mem_replace {fl : List Nat} {x nextA a : Nat}
    (h : x ∈ fl.map fun y => if y = nextA then a else y) : x = a ∨ x ∈ fl := by
  obtain ⟨y, hy, he⟩ := List.mem_map.mp h
  by_cases hc : y = nextA
  · left
    rw [← he, if_pos hc]
  · right
    rw [← he, if_neg hc]
    exact hy

theorem BLOCK_MIN_mod : BLOCK_MIN % 8 = 0 := by decide

theorem extend_inv (h : Heap) (size : Nat) (hbm : ∀ b ∈ h.blocks, b.size % 8 = 0) :
    (∀ b ∈ (extend h size).1.blocks, b.size % 8 = 0) ∧
    (extend h size).1.freeList = h.freeList ∧
    (extend h size).2 % 8 = OFFSET % 8 := by
  rcases List.eq_nil_or_concat h.blocks with hnil | ⟨init, old, hdec⟩
  · rw [extend_eval_nil h size hnil]
    refine ⟨?_, rfl, by omega⟩
    intro b hb
    rcases List.mem_singleton.mp hb with rfl
    exact ALIGN_FLOOR_mod size BLOCK_MIN BLOCK_MIN_mod
  · rw [List.concat_eq_append] at hdec
    have hinitm : ∀ b ∈ init, b.size % 8 = 0 := fun b hb =>
      hbm b (by rw [hdec]; exact List.mem_append_left _ hb)
    have holdm : old.size % 8 = 0 :=
      hbm old (by rw [hdec]; exact List.mem_append_right _ (by simp))
    by_cases hal : old.alloc = true
    · rw [extend_eval_alloc h size init old hdec hal]
      refine ⟨?_, rfl, ?_⟩
      · intro b hb
        rcases List.mem_append.mp hb with hb' | hb'
        · exact hbm b hb'
        · rcases List.mem_singleton.mp hb' with rfl
          exact ALIGN_FLOOR_mod size BLOCK_MIN BLOCK_MIN_mod
      · have := sumSize_mod hbm
        omega
    · have hal' : old.alloc = false := by
        revert hal
        cases old.alloc <;> simp
      rw [extend_eval_free h size init old hdec hal']
      refine ⟨?_, rfl, ?_⟩
      · intro b hb
        rcases List.mem_append.mp hb with hb' | hb'
        · exact hinitm b hb'
        · rcases List.mem_singleton.mp hb' with rfl
          have := ALIGN_mod (2 * sizeofLong + size - old.size)
          simp only []
          omega
      · have := sumSize_mod hinitm
        omega

theorem mm_malloc_inv (h : Heap) (n : Nat) (hi : Inv h) :
    Inv (mm_malloc h n).1 ∧ ∀ x, (mm_malloc h n).2 = some x → x % 8 = 0 := by
  obtain ⟨hbm, hfm⟩ := hi
  have hOFF : OFFSET = 4 := by decide
  by_cases hn : n = 0
  · subst hn
    refine ⟨⟨hbm, hfm⟩, ?_⟩
    intro x hx
    simp [mm_malloc] at hx
  · rcases hfl : h.freeList with _ | ⟨f, fl'⟩
    · rw [mm_malloc_emptyfl_eval h n hn hfl]
      refine ⟨⟨?_, by simp⟩, ?_⟩
      · intro b hb
        rcases List.mem_append.mp hb with hb' | hb'
        · exact hbm b hb'
        · rcases List.mem_singleton.mp hb' with rfl
          exact ALIGN_FLOOR_mod n BLOCK_MIN BLOCK_MIN_mod
      · intro x hx
        injection hx with hx'
        subst hx'
        have h1 := sumSize_mod hbm
        unfold sizeofLong
        omega
    · rcases hfind : findMin n (h.freeList.map fun x => (x, innerAt h.blocks x)) none
        with _ | ⟨a, s⟩
      · rw [mm_malloc_nofit_eval h n f fl' hn hfl hfind]
        obtain ⟨hebm, hefl, hea⟩ := extend_inv h n hbm
        refine ⟨⟨setAllocAt_mod hebm, ?_⟩, ?_⟩
        · intro x hx
          refine hfm x ?_
          rw [← hefl]
          exact List.mem_of_mem_erase hx
        · intro x hx
          injection hx with hx'
          subst hx'
          unfold sizeofLong
          omega
      · have hmem : a ∈ h.freeList := by
          obtain ⟨pre, suf, hdec, -⟩ := findMin_first n _ _ hfind
          have hmm : (a, s) ∈ h.freeList.map fun x => (x, innerAt h.blocks x) := by
            rw [hdec]
            simp
          obtain ⟨x, hx, he⟩ := List.mem_map.mp hmm
          injection he with h1 h2
          subst h1
          exact hx
        have ha8 : a % 8 = OFFSET % 8 := hfm a hmem
        rw [mm_malloc_fit_eval h n a s f fl' hn hfl hfind]
        have hsplit8 : (ALIGN_FLOOR n BLOCK_MIN + 2 * sizeofLong) % 8 = 0 := by
          have := ALIGN_FLOOR_mod n BLOCK_MIN BLOCK_MIN_mod
          unfold sizeofLong
          omega
        by_cases hcond :
            sizeAt h.blocks a - (ALIGN_FLOOR n BLOCK_MIN + 2 * sizeofLong) < BLOCK_MIN
        · rw [if_pos hcond]
          refine ⟨⟨setAllocAt_mod hbm, ?_⟩, ?_⟩
          · intro x hx
            exact hfm x (List.mem_of_mem_erase hx)
          · intro x hx
            injection hx with hx'
            subst hx'
            unfold sizeofLong
            omega
        · rw [if_neg hcond]
          refine ⟨⟨setAllocAt_mod (splitAtAddr_mod hbm hsplit8), ?_⟩, ?_⟩
          · intro x hx
            rcases List.mem_cons.mp hx with rfl | hx'
            · omega
            · exact hfm x (List.mem_of_mem_erase hx')
          · intro x hx
            injection hx with hx'
            subst hx'
            unfold sizeofLong
            omega

theorem mm_free_inv (h : Heap) (p : Option Nat) (hi : Inv h) : Inv (mm_free h p) := by
  obtain ⟨hbm, hfm⟩ := hi
  rcases p with _ | pa
  · exact ⟨hbm, hfm⟩
  · rcases hb : blockAt h.blocks OFFSET (pa - sizeofLong) with _ | b
    · simpa [mm_free, hb] using And.intro hbm hfm
    · by_cases hal : b.alloc = false
      · simpa [mm_free, hb, hal] using And.intro hbm hfm
      · have ha8 : (pa - sizeofLong) % 8 = OFFSET % 8 := blockAt_addr_mod hbm hb
        have hm1 : ∀ x ∈ setAllocAt h.blocks OFFSET (pa - sizeofLong) false, x.size % 8 = 0 :=
          setAllocAt_mod hbm
        simp only [mm_free, hb, if_neg hal]
        have hrepl : ∀ nextA x, (x ∈ h.freeList.map fun y =>
            if y = nextA then pa - sizeofLong else y) → x % 8 = OFFSET % 8 := by
          intro nextA x hx
          rcases mem_replace hx with rfl | hx'
          · exact ha8
          · exact hfm x hx'
        split
        · split
          · split
            · exact ⟨mergeAt_mod hm1, fun x hx => hrepl _ x hx⟩
            · refine ⟨mergeAt_mod (mergeAt_mod hm1), fun x hx => ?_⟩
              exact hrepl _ x (List.mem_of_mem_erase hx)
          · exact ⟨mergeAt_mod hm1, fun x hx => hrepl _ x hx⟩
        · split
          · split
            · refine ⟨hm1, fun x hx => ?_⟩
              rcases List.mem_cons.mp hx with rfl | hx'
              · exact ha8
              · exact hfm x hx'
            · exact ⟨mergeAt_mod hm1, hfm⟩
          · refine ⟨hm1, fun x hx => ?_⟩
            rcases List.mem_cons.mp hx with rfl | hx'
            · exact ha8
            · exact hfm x hx'

theorem run_aligned (ops : List Op) :
    ∀ h, Inv h → ∀ r ∈ (run h ops).2, ∀ x, r = some x → x % 8 = 0 := by
  induction ops with
  | nil =>
    intro h hi r hr
    simp [run] at hr
  | cons op rest ih =>
    intro h hi r hr
    rcases op with n | p
    · obtain ⟨hinv, hptr⟩ := mm_malloc_inv h n hi
      simp only [run, runOp] at hr
      rcases List.mem_cons.mp hr with rfl | hr'
      · exact hptr
      · exact ih (mm_malloc h n).1 hinv r hr'
    · have hinv := mm_free_inv h p hi
      simp only [run, runOp] at hr
      rcases List.mem_cons.mp hr with rfl | hr'
      · intro x hx
        cases hx
      · exact ih _ hinv r hr'

/-! Claim C8. -/

/-- C8: for every sequence of allocate and deallocate calls run from a
fresh region, every non-null pointer the allocator returns is a multiple
of the 8-byte alignment unit. -/
theorem returned_pointers_aligned (ops : List Op) :
    ∀ r ∈ (run initHeap ops).2, ∀ x, r = some x → x % ALIGNMENT = 0 :=
  run_aligned ops initHeap ⟨by simp [initHeap], by simp [initHeap]⟩

/-- Witness for C8 on the trace allocate(5). -/
theorem returned_pointers_aligned_witness :
    some 8 ∈ (run initHeap [Op.malloc 5]).2 ∧ (8 : Nat) % ALIGNMENT = 0 :=
  ⟨by decide, returned_pointers_aligned [Op.malloc 5] (some 8) (by decide) 8 rfl⟩

/-! Evaluation lemmas for the branches of `mm_free` on a decomposed heap.
In each lemma `a` is the freed block's address, `pre`/`post` the blocks
before and after it. -/

theorem mm_free_eval_next_prev (h : Heap) (pa a : Nat) (b c q : Block)
    (pre' post' : List Block)
    (hpa : pa - sizeofLong = a)
    (hdec : h.blocks = (pre' ++ [q]) ++ b :: c :: post')
    (ha : a = OFFSET + sumSize (pre' ++ [q]))
    (hb : b.alloc = true) (hc : c.alloc = false) (hq : q.alloc = false)
    (hpos : ∀ x ∈ h.blocks, 0 < x.size) :
    mm_free h (some pa) =
      { blocks := pre' ++ ⟨q.size + (b.size + c.size), false⟩ :: post',
        freeList := (h.freeList.map fun x => if x = a + b.size then a else x).erase a } := by
  obtain ⟨blocks, fls⟩ := h
  dsimp only at hdec hpos ⊢
  subst hdec
  have hpospre : ∀ x ∈ pre' ++ [q], 0 < x.size := fun x hx =>
    hpos x (List.mem_append_left _ hx)
  have hpospre' : ∀ x ∈ pre', 0 < x.size := fun x hx =>
    hpospre x (List.mem_append_left _ hx)
  have hbpos : 0 < b.size := hpos b (by simp)
  have hqpos : 0 < q.size := hpospre q (by simp)
  have hblockAt : blockAt ((pre' ++ [q]) ++ b :: c :: post') OFFSET a = some b := by
    rw [ha]
    exact blockAt_at b _ hpospre
  have hset : setAllocAt ((pre' ++ [q]) ++ b :: c :: post') OFFSET a false
      = (pre' ++ [q]) ++ ⟨b.size, false⟩ :: c :: post' := by
    rw [ha]
    exact setAllocAt_at b _ false hpospre
  have hnext : blockAt ((pre' ++ [q]) ++ ⟨b.size, false⟩ :: c :: post') OFFSET (a + b.size)
      = some c := by
    have hrearr : (pre' ++ [q]) ++ ⟨b.size, false⟩ :: c :: post'
        = ((pre' ++ [q]) ++ [⟨b.size, false⟩]) ++ c :: post' := by simp
    have haddr : a + b.size = OFFSET + sumSize ((pre' ++ [q]) ++ [⟨b.size, false⟩]) := by
      rw [ha]
      simp only [sumSize, List.map_append, List.sum_append, List.map_cons, List.sum_cons,
        List.map_nil, List.sum_nil]
      omega
    rw [hrearr, haddr]
    refine blockAt_at c post' ?_
    intro x hx
    rcases List.mem_append.mp hx with hx' | hx'
    · exact hpospre x hx'
    · rcases List.mem_singleton.mp hx' with rfl
      exact hbpos
  have hmerge : mergeAt ((pre' ++ [q]) ++ ⟨b.size, false⟩ :: c :: post') OFFSET a
      = (pre' ++ [q]) ++ ⟨b.size + c.size, false⟩ :: post' := by
    rw [ha]
    exact mergeAt_at _ _ _ hpospre
  have hprev : prevBlockOf ((pre' ++ [q]) ++ ⟨b.size + c.size, false⟩ :: post') OFFSET a
      = some q := by
    have hrearr : (pre' ++ [q]) ++ ⟨b.size + c.size, false⟩ :: post'
        = pre' ++ q :: ⟨b.size + c.size, false⟩ :: post' := by simp
    have haddr : a = OFFSET + sumSize pre' + q.size := by
      rw [ha]
      simp only [sumSize, List.map_append, List.sum_append, List.map_cons, List.sum_cons,
        List.map_nil, List.sum_nil]
      omega
    rw [hrearr, haddr]
    exact prevBlockOf_at q _ hqpos
  have hmerge2 : mergeAt ((pre' ++ [q]) ++ ⟨b.size + c.size, false⟩ :: post') OFFSET (a - q.size)
      = pre' ++ ⟨q.size + (b.size + c.size), false⟩ :: post' := by
    have hrearr : (pre' ++ [q]) ++ ⟨b.size + c.size, false⟩ :: post'
        = pre' ++ q :: ⟨b.size + c.size, false⟩ :: post' := by simp
    have haddr : a - q.size = OFFSET + sumSize pre' := by
      rw [ha]
      simp only [sumSize, List.map_append, List.sum_append, List.map_cons, List.sum_cons,
        List.map_nil, List.sum_nil]
      omega
    rw [hrearr, haddr]
    exact mergeAt_at q _ post' hpospre'
  simp only [mm_free, hpa, hblockAt, hset, hnext, hmerge, hprev, hmerge2, hb, hc, hq]
  simp

theorem mm_free_eval_next_only (h : Heap) (pa a : Nat) (b c : Block)
    (pre post' : List Block)
    (hpa : pa - sizeofLong = a)
    (hdec : h.blocks = pre ++ b :: c :: post')
    (ha : a = OFFSET + sumSize pre)
    (hb : b.alloc = true) (hc : c.alloc = false)
    (hprev : ∀ pb, prevBlockOf (pre ++ ⟨b.size + c.size, false⟩ :: post') OFFSET a = some pb →
       pb.alloc = true)
    (hpos : ∀ x ∈ h.blocks, 0 < x.size) :
    mm_free h (some pa) =
      { blocks := pre ++ ⟨b.size + c.size, false⟩ :: post',
        freeList := h.freeList.map fun x => if x = a + b.size then a else x } := by
  obtain ⟨blocks, fls⟩ := h
  dsimp only at hdec hpos ⊢
  subst hdec
  have hpospre : ∀ x ∈ pre, 0 < x.size := fun x hx => hpos x (List.mem_append_left _ hx)
  have hbpos : 0 < b.size := hpos b (by simp)
  have hblockAt : blockAt (pre ++ b :: c :: post') OFFSET a = some b := by
    rw [ha]
    exact blockAt_at b _ hpospre
  have hset : setAllocAt (pre ++ b :: c :: post') OFFSET a false
      = pre ++ ⟨b.size, false⟩ :: c :: post' := by
    rw [ha]
    exact setAllocAt_at b _ false hpospre
  have hnext : blockAt (pre ++ ⟨b.size, false⟩ :: c :: post') OFFSET (a + b.size) = some c := by
    have hrearr : pre ++ ⟨b.size, false⟩ :: c :: post'
        = (pre ++ [⟨b.size, false⟩]) ++ c :: post' := by simp
    have haddr : a + b.size = OFFSET + sumSize (pre ++ [⟨b.size, false⟩]) := by
      rw [ha]
      simp only [sumSize, List.map_append, List.sum_append, List.map_cons, List.sum_cons,
        List.map_nil, List.sum_nil]
      omega
    rw [hrearr, haddr]
    refine blockAt_at c post' ?_
    intro x hx
    rcases List.mem_append.mp hx with hx' | hx'
    · exact hpospre x hx'
    · rcases List.mem_singleton.mp hx' with rfl
      exact hbpos
  have hmerge : mergeAt (pre ++ ⟨b.size, false⟩ :: c :: post') OFFSET a
      = pre ++ ⟨b.size + c.size, false⟩ :: post' := by
    rw [ha]
    exact mergeAt_at _ _ _ hpospre
  simp only [mm_free, hpa, hblockAt, hset, hnext, hmerge, hb, hc]
  rcases hpb : prevBlockOf (pre ++ ⟨b.size + c.size, false⟩ :: post') OFFSET a with _ | pb
  · simp [hpb]
  · have hpba := hprev pb hpb
    simp [hpb, hpba]

theorem mm_free_eval_prev_only (h : Heap) (pa a : Nat) (b q : Block)
    (pre' post : List Block)
    (hpa : pa - sizeofLong = a)
    (hdec : h.blocks = (pre' ++ [q]) ++ b :: post)
    (ha : a = OFFSET + sumSize (pre' ++ [q]))
    (hb : b.alloc = true) (hq : q.alloc = false)
    (hnext : ∀ nb, blockAt ((pre' ++ [q]) ++ ⟨b.size, false⟩ :: post) OFFSET (a + b.size)
       = some nb → nb.alloc = true)
    (hpos : ∀ x ∈ h.blocks, 0 < x.size) :
    mm_free h (some pa) =
      { blocks := pre' ++ ⟨q.size + b.size, false⟩ :: post, freeList := h.freeList } := by
  obtain ⟨blocks, fls⟩ := h
  dsimp only at hdec hpos ⊢
  subst hdec
  have hpospre : ∀ x ∈ pre' ++ [q], 0 < x.size := fun x hx =>
    hpos x (List.mem_append_left _ hx)
  have hpospre' : ∀ x ∈ pre', 0 < x.size := fun x hx =>
    hpospre x (List.mem_append_left _ hx)
  have hqpos : 0 < q.size := hpospre q (by simp)
  have hblockAt : blockAt ((pre' ++ [q]) ++ b :: post) OFFSET a = some b := by
    rw [ha]
    exact blockAt_at b _ hpospre
  have hset : setAllocAt ((pre' ++ [q]) ++ b :: post) OFFSET a false
      = (pre' ++ [q]) ++ ⟨b.size, false⟩ :: post := by
    rw [ha]
    exact setAllocAt_at b _ false hpospre
  have hprev : prevBlockOf ((pre' ++ [q]) ++ ⟨b.size, false⟩ :: post) OFFSET a = some q := by
    have hrearr : (pre' ++ [q]) ++ ⟨b.size, false⟩ :: post
        = pre' ++ q :: ⟨b.size, false⟩ :: post := by simp
    have haddr : a = OFFSET + sumSize pre' + q.size := by
      rw [ha]
      simp only [sumSize, List.map_append, List.sum_append, List.map_cons, List.sum_cons,
        List.map_nil, List.sum_nil]
      omega
    rw [hrearr, haddr]
    exact prevBlockOf_at q _ hqpos
  have hmerge2 : mergeAt ((pre' ++ [q]) ++ ⟨b.size, false⟩ :: post) OFFSET (a - q.size)
      = pre' ++ ⟨q.size + b.size, false⟩ :: post := by
    have hrearr : (pre' ++ [q]) ++ ⟨b.size, false⟩ :: post
        = pre' ++ q :: ⟨b.size, false⟩ :: post := by simp
    have haddr : a - q.size = OFFSET + sumSize pre' := by
      rw [ha]
      simp only [sumSize, List.map_append, List.sum_append, List.map_cons, List.sum_cons,
        List.map_nil, List.sum_nil]
      omega
    rw [hrearr, haddr]
    exact mergeAt_at q _ post hpospre'
  simp only [mm_free, hpa, hblockAt, hset, hb, hq, hprev, hmerge2]
  rcases hnb : blockAt ((pre' ++ [q]) ++ ⟨b.size, false⟩ :: post) OFFSET (a + b.size)
    with _ | nb
  · simp [hnb, hprev, hmerge2, hq]
  · have hnba := hnext nb hnb
    simp [hnb, hnba, hprev, hmerge2, hq]

theorem mm_free_eval_isolated (h : Heap) (pa a : Nat) (b : Block)
    (pre post : List Block)
    (hpa : pa - sizeofLong = a)
    (hdec : h.blocks = pre ++ b :: post)
    (ha : a = OFFSET + sumSize pre)
    (hb : b.alloc = true)
    (hnext : ∀ nb, blockAt (pre ++ ⟨b.size, false⟩ :: post) OFFSET (a + b.size) = some nb →
       nb.alloc = true)
    (hprev : ∀ pb, prevBlockOf (pre ++ ⟨b.size, false⟩ :: post) OFFSET a = some pb →
       pb.alloc = true)
    (hpos : ∀ x ∈ h.blocks, 0 < x.size) :
    mm_free h (some pa) =
      { blocks := pre ++ ⟨b.size, false⟩ :: post, freeList := a :: h.freeList } := by
  obtain ⟨blocks, fls⟩ := h
  dsimp only at hdec hpos ⊢
  subst hdec
  have hpospre : ∀ x ∈ pre, 0 < x.size := fun x hx => hpos x (List.mem_append_left _ hx)
  have hblockAt : blockAt (pre ++ b :: post) OFFSET a = some b := by
    rw [ha]
    exact blockAt_at b _ hpospre
  have hset : setAllocAt (pre ++ b :: post) OFFSET a false
      = pre ++ ⟨b.size, false⟩ :: post := by
    rw [ha]
    exact setAllocAt_at b _ false hpospre
  simp only [mm_free, hpa, hblockAt, hset, hb]
  rcases hnb : blockAt (pre ++ ⟨b.size, false⟩ :: post) OFFSET (a + b.size) with _ | nb
  · rcases hpb : prevBlockOf (pre ++ ⟨b.size, false⟩ :: post) OFFSET a with _ | pb
    · simp [hnb, hpb]
    · have hpba := hprev pb hpb
      simp [hnb, hpb, hpba]
  · have hnba := hnext nb hnb
    rcases hpb : prevBlockOf (pre ++ ⟨b.size, false⟩ :: post) OFFSET a with _ | pb
    · simp [hnb, hnba, hpb]
    · have hpba := hprev pb hpb
      simp [hnb, hnba, hpb, hpba]

/-! Helpers for the no-adjacent-free-blocks invariant. -/

theorem chain_extract (pre post : List Block) (b : Block)
    (h : List.Chain' (fun x y => x.alloc = true ∨ y.alloc = true) (pre ++ b :: post)) :
    List.Chain' (fun x y => x.alloc = true ∨ y.alloc = true) pre ∧
    List.Chain' (fun x y => x.alloc = true ∨ y.alloc = true) post ∧
    (∀ x, pre.getLast? = some x → (x.alloc = true ∨ b.alloc = true)) ∧
    (∀ y, post.head? = some y → (b.alloc = true ∨ y.alloc = true)) := by
  rw [List.chain'_append] at h
  obtain ⟨h1, h2, h3⟩ := h
  rw [List.chain'_cons'] at h2
  refine ⟨h1, h2.2, ?_, ?_⟩
  · intro x hx
    exact h3 x (by simp [Option.mem_def, hx]) b (by simp)
  · intro y hy
    exact h2.1 y (by simp [Option.mem_def, hy])

theorem chain_glue (pre post : List Block) (M : Block)
    (hpre : List.Chain' (fun x y => x.alloc = true ∨ y.alloc = true) pre)
    (hpost : List.Chain' (fun x y => x.alloc = true ∨ y.alloc = true) post)
    (hlast : ∀ x, pre.getLast? = some x → (x.alloc = true ∨ M.alloc = true))
    (hhead : ∀ y, post.head? = some y → (M.alloc = true ∨ y.alloc = true)) :
    List.Chain' (fun x y => x.alloc = true ∨ y.alloc = true) (pre ++ M :: post) := by
  rw [List.chain'_append]
  refine ⟨hpre, ?_, ?_⟩
  · rw [List.chain'_cons']
    refine ⟨fun y hy => hhead y (by simpa [Option.mem_def] using hy), hpost⟩
  · intro x hx y hy
    have hy' : M = y := by simpa [Option.mem_def] using hy
    subst hy'
    exact hlast x (by simpa [Option.mem_def] using hx)

theorem blockAt_next (pre : List Block) (b' : Block) (post : List Block) (base : Nat)
    (hpos : ∀ x ∈ pre, 0 < x.size) (hb' : 0 < b'.size) :
    blockAt (pre ++ b' :: post) base (base + sumSize pre + b'.size)
      = match post with
        | [] => none
        | c :: _ => some c := by
  have hpos' : ∀ x ∈ pre ++ [b'], 0 < x.size := by
    intro x hx
    rcases List.mem_append.mp hx with hx' | hx'
    · exact hpos x hx'
    · rcases List.mem_singleton.mp hx' with rfl
      exact hb'
  have hrearr : pre ++ b' :: post = (pre ++ [b']) ++ post := by simp
  have haddr : base + sumSize pre + b'.size = base + sumSize (pre ++ [b']) := by
    simp only [sumSize, List.map_append, List.sum_append, List.map_cons, List.sum_cons,
      List.map_nil, List.sum_nil]
    omega
  rw [hrearr, haddr]
  cases post with
  | nil =>
    rw [List.append_nil]
    exact blockAt_none_of_ge_end hpos' (Nat.le_refl _)
  | cons c post' => exact blockAt_at c post' hpos'

/-! Claim C2. -/

/-- C2: starting from a heap whose blocks have positive sizes and satisfy
the coalescing invariant, every call to `mm_free` (on any pointer, valid
or not) leaves the region with no two adjacent free blocks. -/
theorem mm_free_no_adjacent_free (h : Heap) (p : Option Nat)
    (hpos0 : ∀ x ∈ h.blocks, 0 < x.size)
    (hadj0 : noAdjB h.blocks = true) :
    noAdjB (mm_free h p).blocks = true := by
  rcases p with _ | pa
  · exact hadj0
  rcases hblock : blockAt h.blocks OFFSET (pa - sizeofLong) with _ | b
  · simpa [mm_free, hblock] using hadj0
  by_cases hal : b.alloc = false
  · simpa [mm_free, hblock, hal] using hadj0
  have hb : b.alloc = true := by
    revert hal
    cases b.alloc <;> simp
  obtain ⟨pre, post, hdec, ha⟩ := blockAt_decomp hblock
  have hadj : List.Chain' (fun x y => x.alloc = true ∨ y.alloc = true) (pre ++ b :: post) := by
    rw [← hdec, ← noAdjB_chain]
    exact hadj0
  rw [noAdjB_chain]
  obtain ⟨hLpre, hLpost, hlastb, hheadb⟩ := chain_extract pre post b hadj
  have hpos : ∀ x ∈ pre ++ b :: post, 0 < x.size := by
    rw [← hdec]
    exact hpos0
  have hpospre : ∀ x ∈ pre, 0 < x.size := fun x hx => hpos x (List.mem_append_left _ hx)
  have hbpos : 0 < b.size := hpos b (by simp)
  rcases hpost : post with _ | ⟨c, post'⟩
  · -- the freed block is the last block: only a possible merge with the previous block
    subst hpost
    have hnext : ∀ nb, blockAt (pre ++ ⟨b.size, false⟩ :: ([] : List Block)) OFFSET
        ((pa - sizeofLong) + b.size) = some nb → nb.alloc = true := by
      intro nb hnb
      rw [ha, blockAt_next pre ⟨b.size, false⟩ [] OFFSET hpospre hbpos] at hnb
      cases hnb
    rcases List.eq_nil_or_concat pre with rfl | ⟨pre', q, hpre⟩
    · rw [mm_free_eval_isolated h pa (pa - sizeofLong) b [] [] rfl hdec ha hb hnext ?hprev hpos0]
      · simp [noAdjB]
      case hprev =>
        intro pb hpb
        have hnone : prevBlockOf ([] ++ ⟨b.size, false⟩ :: ([] : List Block)) OFFSET
            (pa - sizeofLong) = none := by
          refine prevBlockOf_none_of_le ?_ ?_
          · intro x hx
            rcases List.mem_singleton.mp (by simpa using hx) with rfl
            exact hbpos
          · rw [ha]
            simp [sumSize_nil]
        rw [hnone] at hpb
        cases hpb
    · rw [List.concat_eq_append] at hpre
      subst hpre
      obtain ⟨hLpre', -, hlastq, -⟩ := chain_extract pre' [] q (by simpa using hLpre)
      have hqpos : 0 < q.size := hpospre q (by simp)
      have hprevq : prevBlockOf ((pre' ++ [q]) ++ ⟨b.size, false⟩ :: []) OFFSET
          (pa - sizeofLong) = some q := by
        have hrearr : (pre' ++ [q]) ++ ⟨b.size, false⟩ :: ([] : List Block)
            = pre' ++ q :: ⟨b.size, false⟩ :: [] := by simp
        have haddr : pa - sizeofLong = OFFSET + sumSize pre' + q.size := by
          rw [ha]
          simp only [sumSize, List.map_append, List.sum_append, List.map_cons, List.sum_cons,
            List.map_nil, List.sum_nil]
          omega
        rw [hrearr, haddr]
        exact prevBlockOf_at q _ hqpos
      by_cases hqal : q.alloc = true
      · rw [mm_free_eval_isolated h pa (pa - sizeofLong) b (pre' ++ [q]) [] rfl hdec ha hb
          hnext ?hprev hpos0]
        case hprev =>
          intro pb hpb
          rw [hprevq] at hpb
          injection hpb with hpb'
          subst hpb'
          exact hqal
        refine chain_glue (pre' ++ [q]) [] ⟨b.size, false⟩ hLpre (by simp) ?_ ?_
        · intro x hx
          rw [List.getLast?_concat] at hx
          injection hx with hx'
          subst hx'
          exact Or.inl hqal
        · intro y hy
          cases hy
      · have hq : q.alloc = false := by
          revert hqal
          cases q.alloc <;> simp
        rw [mm_free_eval_prev_only h pa (pa - sizeofLong) b q pre' [] rfl hdec ha hb hq
          hnext hpos0]
        refine chain_glue pre' [] ⟨q.size + b.size, false⟩ hLpre' (by simp) ?_ ?_
        · intro x hx
          rcases hlastq x hx with hx' | hx'
          · exact Or.inl hx'
          · rw [hx'] at hq
            cases hq
        · intro y hy
          cases hy
  · subst hpost
    obtain ⟨hheadc, hLpost'⟩ := (List.chain'_cons'.mp hLpost)
    by_cases hcal : c.alloc = true
    · -- next block allocated: only a possible merge with the previous block
      have hnext : ∀ nb, blockAt (pre ++ ⟨b.size, false⟩ :: c :: post') OFFSET
          ((pa - sizeofLong) + b.size) = some nb → nb.alloc = true := by
        intro nb hnb
        rw [ha, blockAt_next pre ⟨b.size, false⟩ (c :: post') OFFSET hpospre hbpos] at hnb
        injection hnb with hnb'
        subst hnb'
        exact hcal
      rcases List.eq_nil_or_concat pre with rfl | ⟨pre', q, hpre⟩
      · rw [mm_free_eval_isolated h pa (pa - sizeofLong) b [] (c :: post') rfl hdec ha hb
          hnext ?hprev hpos0]
        case hprev =>
          intro pb hpb
          have hnone : prevBlockOf ([] ++ ⟨b.size, false⟩ :: c :: post') OFFSET
              (pa - sizeofLong) = none := by
            refine prevBlockOf_none_of_le ?_ ?_
            · intro x hx
              simp only [List.nil_append] at hx
              rcases List.mem_cons.mp hx with rfl | hx'
              · exact hbpos
              · exact hpos x (by simp [hx'])
            · rw [ha]
              simp [sumSize_nil]
          rw [hnone] at hpb
          cases hpb
        refine chain_glue [] (c :: post') ⟨b.size, false⟩ (by simp) hLpost ?_ ?_
        · intro x hx
          cases hx
        · intro y hy
          injection hy with hy'
          subst hy'
          exact Or.inr hcal
      · rw [List.concat_eq_append] at hpre
        subst hpre
        obtain ⟨hLpre', -, hlastq, -⟩ := chain_extract pre' [] q (by simpa using hLpre)
        have hqpos : 0 < q.size := hpospre q (by simp)
        have hprevq : prevBlockOf ((pre' ++ [q]) ++ ⟨b.size, false⟩ :: c :: post') OFFSET
            (pa - sizeofLong) = some q := by
          have hrearr : (pre' ++ [q]) ++ ⟨b.size, false⟩ :: c :: post'
              = pre' ++ q :: ⟨b.size, false⟩ :: c :: post' := by simp
          have haddr : pa - sizeofLong = OFFSET + sumSize pre' + q.size := by
            rw [ha]
            simp only [sumSize, List.map_append, List.sum_append, List.map_cons, List.sum_cons,
              List.map_nil, List.sum_nil]
            omega
          rw [hrearr, haddr]
          exact prevBlockOf_at q _ hqpos
        by_cases hqal : q.alloc = true
        · rw [mm_free_eval_isolated h pa (pa - sizeofLong) b (pre' ++ [q]) (c :: post') rfl
            hdec ha hb hnext ?hprev hpos0]
          case hprev =>
            intro pb hpb
            rw [hprevq] at hpb
            injection hpb with hpb'
            subst hpb'
            exact hqal
          refine chain_glue (pre' ++ [q]) (c :: post') ⟨b.size, false⟩ hLpre hLpost ?_ ?_
          · intro x hx
            rw [List.getLast?_concat] at hx
            injection hx with hx'
            subst hx'
            exact Or.inl hqal
          · intro y hy
            injection hy with hy'
            subst hy'
            exact Or.inr hcal
        · have hq : q.alloc = false := by
            revert hqal
            cases q.alloc <;> simp
          rw [mm_free_eval_prev_only h pa (pa - sizeofLong) b q pre' (c :: post') rfl hdec ha
            hb hq hnext hpos0]
          refine chain_glue pre' (c :: post') ⟨q.size + b.size, false⟩ hLpre' hLpost ?_ ?_
          · intro x hx
            rcases hlastq x hx with hx' | hx'
            · exact Or.inl hx'
            · rw [hx'] at hq
              cases hq
          · intro y hy
            injection hy with hy'
            subst hy'
            exact Or.inr hcal
    · -- next block free: it is absorbed, then a free previous block absorbs the result
      have hc : c.alloc = false := by
        revert hcal
        cases c.alloc <;> simp
      have hheadpost' : ∀ y, post'.head? = some y → y.alloc = true := by
        intro y hy
        rcases hheadc y (by simpa [Option.mem_def] using hy) with hy' | hy'
        · rw [hc] at hy'
          cases hy'
        · exact hy'
      rcases List.eq_nil_or_concat pre with rfl | ⟨pre', q, hpre⟩
      · rw [mm_free_eval_next_only h pa (pa - sizeofLong) b c [] post' rfl hdec ha hb hc
          ?hprev hpos0]
        case hprev =>
          intro pb hpb
          have hnone : prevBlockOf ([] ++ ⟨b.size + c.size, false⟩ :: post') OFFSET
              (pa - sizeofLong) = none := by
            refine prevBlockOf_none_of_le ?_ ?_
            · intro x hx
              simp only [List.nil_append] at hx
              rcases List.mem_cons.mp hx with rfl | hx'
              · simp only []
                omega
              · exact hpos x (by simp [hx'])
            · rw [ha]
              simp [sumSize_nil]
          rw [hnone] at hpb
          cases hpb
        refine chain_glue [] post' ⟨b.size + c.size, false⟩ (by simp) hLpost' ?_ ?_
        · intro x hx
          cases hx
        · intro y hy
          exact Or.inr (hheadpost' y hy)
      · rw [List.concat_eq_append] at hpre
        subst hpre
        obtain ⟨hLpre', -, hlastq, -⟩ := chain_extract pre' [] q (by simpa using hLpre)
        have hqpos : 0 < q.size := hpospre q (by simp)
        by_cases hqal : q.alloc = true
        · rw [mm_free_eval_next_only h pa (pa - sizeofLong) b c (pre' ++ [q]) post' rfl hdec
            ha hb hc ?hprev hpos0]
          case hprev =>
            intro pb hpb
            have hprevq : prevBlockOf ((pre' ++ [q]) ++ ⟨b.size + c.size, false⟩ :: post')
                OFFSET (pa - sizeofLong) = some q := by
              have hrearr : (pre' ++ [q]) ++ ⟨b.size + c.size, false⟩ :: post'
                  = pre' ++ q :: ⟨b.size + c.size, false⟩ :: post' := by simp
              have haddr : pa - sizeofLong = OFFSET + sumSize pre' + q.size := by
                rw [ha]
                simp only [sumSize, List.map_append, List.sum_append, List.map_cons,
                  List.sum_cons, List.map_nil, List.sum_nil]
                omega
              rw [hrearr, haddr]
              exact prevBlockOf_at q _ hqpos
            rw [hprevq] at hpb
            injection hpb with hpb'
            subst hpb'
            exact hqal
          refine chain_glue (pre' ++ [q]) post' ⟨b.size + c.size, false⟩ hLpre hLpost' ?_ ?_
          · intro x hx
            rw [List.getLast?_concat] at hx
            injection hx with hx'
            subst hx'
            exact Or.inl hqal
          · intro y hy
            exact Or.inr (hheadpost' y hy)
        · have hq : q.alloc = false := by
            revert hqal
            cases q.alloc <;> simp
          rw [mm_free_eval_next_prev h pa (pa - sizeofLong) b c q pre' post' rfl hdec ha hb
            hc hq hpos0]
          refine chain_glue pre' post' ⟨q.size + (b.size + c.size), false⟩ hLpre' hLpost' ?_ ?_
          · intro x hx
            rcases hlastq x hx with hx' | hx'
            · exact Or.inl hx'
            · rw [hx'] at hq
              cases hq
          · intro y hy
            exact Or.inr (hheadpost' y hy)

/-- Witness for C2: freeing the middle allocated block between a free and
an allocated block coalesces leftward and leaves no adjacent free pair. -/
theorem mm_free_no_adjacent_free_witness :
    noAdjB (mm_free ⟨[⟨16, false⟩, ⟨24, true⟩, ⟨24, true⟩], [4]⟩ (some 24)).blocks = true :=
  mm_free_no_adjacent_free ⟨[⟨16, false⟩, ⟨24, true⟩, ⟨24, true⟩], [4]⟩ (some 24)
    (by decide) (by decide)

/-! Support lemmas for the allocation round trip. -/

theorem flOkB_spec (h : Heap) (hok : flOkB h = true) :
    ∀ x ∈ h.freeList, ∃ bx, blockAt h.blocks OFFSET x = some bx ∧ bx.alloc = false := by
  intro x hx
  have hx' := List.all_eq_true.mp hok x hx
  rcases hb : blockAt h.blocks OFFSET x with _ | bx
  · rw [hb] at hx'
    cases hx'
  · rw [hb] at hx'
    exact ⟨bx, rfl, by simpa using hx'⟩

theorem freeListedB_spec (fl : List Nat) (l : List Block) (base : Nat)
    (hl : freeListedB fl l base = true) :
    ∀ pre bfree post, l = pre ++ bfree :: post → bfree.alloc = false →
      (base + sumSize pre) ∈ fl := by
  intro pre bfree post hdec hfree
  subst hdec
  rw [freeListedB_append, Bool.and_eq_true] at hl
  have h2 := hl.2
  simp only [freeListedB, hfree, Bool.false_or, Bool.and_eq_true] at h2
  exact (contains_iff_mem _ _).mp h2.1

theorem all_alloc_of_fl_nil (l : List Block) (base : Nat)
    (hl : freeListedB [] l base = true) : ∀ x ∈ l, x.alloc = true := by
  induction l generalizing base with
  | nil => simp
  | cons c rest ih =>
    intro x hx
    simp only [freeListedB, Bool.and_eq_true] at hl
    rcases List.mem_cons.mp hx with rfl | hx'
    · have h1 := hl.1
      simp only [List.contains, Bool.or_eq_true] at h1
      rcases h1 with h1 | h1
      · exact h1
      · cases h1
    · exact ih (base + c.size) hl.2 x hx'

theorem blockAt_interior {l : List Block} {base x : Nat} (pre : List Block) (b : Block)
    (post : List Block)
    (hdec : l = pre ++ b :: post) (hpos : ∀ y ∈ l, 0 < y.size)
    (h1 : base + sumSize pre < x) (h2 : x < base + sumSize pre + b.size) :
    blockAt l base x = none := by
  subst hdec
  rcases hpre : blockAt pre base x with _ | b'
  · rw [blockAt_append_none hpre]
    have hne : ¬ (base + sumSize pre) = x := by omega
    simp only [blockAt, if_neg hne]
    rcases hpost : blockAt post (base + sumSize pre + b.size) x with _ | nb
    · rfl
    · exact absurd (blockAt_le hpost) (by omega)
  · have hend := blockAt_end_le hpre
    have hbpos : 0 < b'.size := hpos b' (List.mem_append_left _ (blockAt_mem hpre))
    omega

theorem sumSize_setAllocAt (l : List Block) (base a : Nat) (v : Bool) :
    sumSize (setAllocAt l base a v) = sumSize l := by
  induction l generalizing base with
  | nil => rfl
  | cons c rest ih =>
    by_cases hb : base = a
    · simp only [setAllocAt, if_pos hb, sumSize_cons]
    · simp only [setAllocAt, if_neg hb, sumSize_cons, ih]

theorem le_inner_ALIGN_FLOOR (n : Nat) :
    n ≤ ALIGN_FLOOR n BLOCK_MIN - 2 * sizeofLong := by
  have h1 := le_ALIGN n
  have h2 := Nat.le_max_left (ALIGN n) BLOCK_MIN
  unfold ALIGN_FLOOR sizeofLong
  omega

theorem malloc_head_outcome (h₂ : Heap) (n a : Nat) (rest : List Nat)
    (hn0 : 0 < n)
    (hfl : h₂.freeList = a :: rest)
    (hq : n ≤ innerAt h₂.blocks a)
    (hmin : ∀ x ∈ rest, n ≤ innerAt h₂.blocks x → innerAt h₂.blocks a ≤ innerAt h₂.blocks x)
    (hpos2 : ∀ x ∈ h₂.blocks, 0 < x.size) :
    (mm_malloc h₂ n).2 = some (a + sizeofLong) ∧
    sumSize (mm_malloc h₂ n).1.blocks = sumSize h₂.blocks := by
  have hn' : n ≠ 0 := by omega
  have hfind : findMin n (h₂.freeList.map fun x => (x, innerAt h₂.blocks x)) none
      = some (a, innerAt h₂.blocks a) := by
    rw [hfl, List.map_cons]
    refine findMin_head n (a, innerAt h₂.blocks a) _ hq ?_
    intro d hd
    obtain ⟨x, hx, he⟩ := List.mem_map.mp hd
    subst he
    exact hmin x hx
  have heval := mm_malloc_fit_eval h₂ n a (innerAt h₂.blocks a) a rest hn' hfl hfind
  rcases hb : blockAt h₂.blocks OFFSET a with _ | b
  · rw [innerAt, hb] at hq
    simp at hq
    omega
  obtain ⟨pre, post, hdec, ha⟩ := blockAt_decomp hb
  have hsz : sizeAt h₂.blocks a = b.size := by
    rw [sizeAt, hb]
  have hpospre : ∀ x ∈ pre, 0 < x.size := fun x hx =>
    hpos2 x (by rw [hdec]; exact List.mem_append_left _ hx)
  rw [heval]
  by_cases hcond : sizeAt h₂.blocks a - (ALIGN_FLOOR n BLOCK_MIN + 2 * sizeofLong) < BLOCK_MIN
  · rw [if_pos hcond]
    exact ⟨rfl, sumSize_setAllocAt _ _ _ _⟩
  · rw [if_neg hcond]
    refine ⟨rfl, ?_⟩
    have hbm : BLOCK_MIN = 16 := by decide
    have hsl : sizeofLong = 4 := by decide
    have hT : ALIGN_FLOOR n BLOCK_MIN + 2 * sizeofLong ≤ b.size := by
      rw [hsz] at hcond
      omega
    rw [hdec, ha]
    rw [splitAtAddr_at b post _ hpospre, sumSize_setAllocAt]
    simp only [sumSize, List.map_append, List.sum_append, List.map_cons, List.sum_cons,
      List.map_nil, List.sum_nil]
    omega

theorem round_trip_emptyfl (h : Heap) (n : Nat)
    (hpos : ∀ x ∈ h.blocks, 0 < x.size)
    (hlistedB : freeListedB h.freeList h.blocks OFFSET = true)
    (hn : 0 < n) (hfl : h.freeList = []) :
    ∀ h₁ p, mm_malloc h n = (h₁, some p) →
      (mm_malloc (mm_free h₁ (some p)) n).2 = some p ∧
      sumSize (mm_malloc (mm_free h₁ (some p)) n).1.blocks
        = sumSize (mm_free h₁ (some p)).blocks := by
  intro h₁ p hmal
  have hn' : n ≠ 0 := by omega
  rw [mm_malloc_emptyfl_eval h n hn' hfl] at hmal
  injection hmal with he1 he2
  injection he2 with he2'
  subst he1
  subst he2'
  have hBpos : 0 < ALIGN_FLOOR n BLOCK_MIN := ALIGN_FLOOR_pos n BLOCK_MIN
  have hEpa : (OFFSET + sumSize h.blocks + sizeofLong) - sizeofLong
      = OFFSET + sumSize h.blocks := by omega
  have hallalloc : ∀ x ∈ h.blocks, x.alloc = true := by
    rw [hfl] at hlistedB
    exact all_alloc_of_fl_nil h.blocks OFFSET hlistedB
  have hpos1 : ∀ x ∈ h.blocks ++ [(⟨ALIGN_FLOOR n BLOCK_MIN, true⟩ : Block)], 0 < x.size := by
    intro x hx
    rcases List.mem_append.mp hx with hx' | hx'
    · exact hpos x hx'
    · rcases List.mem_singleton.mp hx' with rfl
      exact hBpos
  have hposfree : ∀ x ∈ h.blocks ++ [(⟨ALIGN_FLOOR n BLOCK_MIN, false⟩ : Block)], 0 < x.size := by
    intro x hx
    rcases List.mem_append.mp hx with hx' | hx'
    · exact hpos x hx'
    · rcases List.mem_singleton.mp hx' with rfl
      exact hBpos
  have hnext : ∀ nb, blockAt (h.blocks ++ ⟨ALIGN_FLOOR n BLOCK_MIN, false⟩ :: []) OFFSET
      ((OFFSET + sumSize h.blocks) + ALIGN_FLOOR n BLOCK_MIN) = some nb → nb.alloc = true := by
    intro nb hnb
    rw [blockAt_next h.blocks ⟨ALIGN_FLOOR n BLOCK_MIN, false⟩ [] OFFSET hpos hBpos] at hnb
    cases hnb
  have hprev : ∀ pb, prevBlockOf (h.blocks ++ ⟨ALIGN_FLOOR n BLOCK_MIN, false⟩ :: []) OFFSET
      (OFFSET + sumSize h.blocks) = some pb → pb.alloc = true := by
    intro pb hpb
    rcases List.eq_nil_or_concat h.blocks with hnil | ⟨init, old, hdecL⟩
    · rw [hnil] at hpb
      have hnone : prevBlockOf (([] : List Block)
          ++ [(⟨ALIGN_FLOOR n BLOCK_MIN, false⟩ : Block)]) OFFSET
          (OFFSET + sumSize ([] : List Block)) = none := by
        refine prevBlockOf_none_of_le ?_ ?_
        · intro x hx
          rcases List.mem_singleton.mp (by simpa using hx) with rfl
          exact hBpos
        · simp [sumSize_nil]
      rw [hnone] at hpb
      cases hpb
    · rw [List.concat_eq_append] at hdecL
      have hprevq : prevBlockOf (h.blocks ++ ⟨ALIGN_FLOOR n BLOCK_MIN, false⟩ :: []) OFFSET
          (OFFSET + sumSize h.blocks) = some old := by
        have hrearr : h.blocks ++ ⟨ALIGN_FLOOR n BLOCK_MIN, false⟩ :: ([] : List Block)
            = init ++ old :: ⟨ALIGN_FLOOR n BLOCK_MIN, false⟩ :: [] := by
          rw [hdecL]
          simp
        have haddr : OFFSET + sumSize h.blocks = OFFSET + sumSize init + old.size := by
          rw [hdecL]
          simp only [sumSize, List.map_append, List.sum_append, List.map_cons, List.sum_cons,
            List.map_nil, List.sum_nil]
          omega
        rw [hrearr, haddr]
        exact prevBlockOf_at old _ (hpos old (by rw [hdecL]; simp))
      rw [hprevq] at hpb
      injection hpb with hpb'
      subst hpb'
      exact hallalloc old (by rw [hdecL]; simp)
  have hfree := mm_free_eval_isolated
      ({ blocks := h.blocks ++ [⟨ALIGN_FLOOR n BLOCK_MIN, true⟩], freeList := [] } : Heap)
      (OFFSET + sumSize h.blocks + sizeofLong) (OFFSET + sumSize h.blocks)
      ⟨ALIGN_FLOOR n BLOCK_MIN, true⟩ h.blocks []
      hEpa rfl rfl rfl hnext hprev hpos1
  rw [hfree]
  have hba : blockAt (h.blocks ++ ⟨ALIGN_FLOOR n BLOCK_MIN, false⟩ :: []) OFFSET
      (OFFSET + sumSize h.blocks) = some ⟨ALIGN_FLOOR n BLOCK_MIN, false⟩ :=
    blockAt_at _ _ hpos
  have hq : n ≤ innerAt (h.blocks ++ ⟨ALIGN_FLOOR n BLOCK_MIN, false⟩ :: [])
      (OFFSET + sumSize h.blocks) := by
    rw [innerAt, hba]
    exact le_inner_ALIGN_FLOOR n
  exact malloc_head_outcome
    ({ blocks := h.blocks ++ ⟨ALIGN_FLOOR n BLOCK_MIN, false⟩ :: [],
       freeList := (OFFSET + sumSize h.blocks) :: [] } : Heap)
    n (OFFSET + sumSize h.blocks) [] hn rfl hq (by simp) hposfree

theorem map_id_on {l : List Nat} {f : Nat → Nat} (h : ∀ x ∈ l, f x = x) : l.map f = l := by
  induction l with
  | nil => rfl
  | cons c rest ih =>
    rw [List.map_cons, h c (by simp), ih fun x hx => h x (by simp [hx])]

theorem next_alloc_of_head (pre : List Block) (b' : Block) (post : List Block) (a : Nat)
    (hpospre : ∀ x ∈ pre, 0 < x.size) (hb' : 0 < b'.size)
    (ha : a = OFFSET + sumSize pre)
    (hhead : ∀ y, post.head? = some y → y.alloc = true) :
    ∀ nb, blockAt (pre ++ b' :: post) OFFSET (a + b'.size) = some nb → nb.alloc = true := by
  intro nb hnb
  rw [ha, blockAt_next pre b' post OFFSET hpospre hb'] at hnb
  cases post with
  | nil => cases hnb
  | cons c post' =>
    injection hnb with hnb'
    subst hnb'
    exact hhead c rfl

theorem prev_alloc_of_last (pre : List Block) (rest : List Block) (a : Nat)
    (hpos_all : ∀ x ∈ pre ++ rest, 0 < x.size)
    (ha : a = OFFSET + sumSize pre)
    (hlast : ∀ x2, pre.getLast? = some x2 → x2.alloc = true) :
    ∀ pb, prevBlockOf (pre ++ rest) OFFSET a = some pb → pb.alloc = true := by
  intro pb hpb
  rcases List.eq_nil_or_concat pre with rfl | ⟨pre', q, hpre⟩
  · have hnone : prevBlockOf (([] : List Block) ++ rest) OFFSET a = none := by
      refine prevBlockOf_none_of_le (fun x hx => hpos_all x hx) ?_
      rw [ha]
      simp [sumSize_nil]
    rw [hnone] at hpb
    cases hpb
  · rw [List.concat_eq_append] at hpre
    subst hpre
    have hqpos : 0 < q.size := hpos_all q (by simp)
    have hprevq : prevBlockOf ((pre' ++ [q]) ++ rest) OFFSET a = some q := by
      have hrearr : (pre' ++ [q]) ++ rest = pre' ++ q :: rest := by simp
      have haddr : a = OFFSET + sumSize pre' + q.size := by
        rw [ha]
        simp only [sumSize, List.map_append, List.sum_append, List.map_cons, List.sum_cons,
          List.map_nil, List.sum_nil]
        omega
      rw [hrearr, haddr]
      exact prevBlockOf_at q _ hqpos
    rw [hprevq] at hpb
    injection hpb with hpb'
    subst hpb'
    exact hlast q (by rw [List.getLast?_concat])

theorem round_trip_fit (h : Heap) (n a s : Nat)
    (hpos : ∀ x ∈ h.blocks, 0 < x.size)
    (hadjB : noAdjB h.blocks = true)
    (hflok : flOkB h = true)
    (hn : 0 < n) (f : Nat) (fl' : List Nat) (hfl : h.freeList = f :: fl')
    (hfind : findMin n (h.freeList.map fun x => (x, innerAt h.blocks x)) none = some (a, s)) :
    ∀ h₁ p, mm_malloc h n = (h₁, some p) →
      (mm_malloc (mm_free h₁ (some p)) n).2 = some p ∧
      sumSize (mm_malloc (mm_free h₁ (some p)) n).1.blocks
        = sumSize (mm_free h₁ (some p)).blocks := by
  intro h₁ p hmal
  have hn' : n ≠ 0 := by omega
  have hmemid : a ∈ h.freeList ∧ innerAt h.blocks a = s := by
    obtain ⟨cpre, csuf, hcdec, -⟩ := findMin_first n _ _ hfind
    have hmemc : (a, s) ∈ h.freeList.map fun x => (x, innerAt h.blocks x) := by
      rw [hcdec]
      simp
    obtain ⟨x, hxmem, hxe⟩ := List.mem_map.mp hmemc
    injection hxe with hxe1 hxe2
    subst hxe1
    exact ⟨hxmem, hxe2⟩
  obtain ⟨hamem, hs⟩ := hmemid
  have hminim := (findMin_min n _ none (a, s) hfind).2
  have hqual : n ≤ s := findMin_qual n _ none (a, s) (fun m hm => by cases hm) hfind
  obtain ⟨b, hba, hbfree⟩ := flOkB_spec h hflok a hamem
  obtain ⟨pre, post, hdec, ha⟩ := blockAt_decomp hba
  obtain ⟨bs, balloc⟩ := b
  have hbal : balloc = false := hbfree
  subst hbal
  have hszA : sizeAt h.blocks a = bs := by rw [sizeAt, hba]
  have hadjC : List.Chain' (fun x y => x.alloc = true ∨ y.alloc = true)
      (pre ++ ⟨bs, false⟩ :: post) := by
    rw [← hdec, ← noAdjB_chain]
    exact hadjB
  obtain ⟨hLpre, hLpost, hlastb, hheadb⟩ := chain_extract _ _ _ hadjC
  have hlastalloc : ∀ x2, pre.getLast? = some x2 → x2.alloc = true := by
    intro x2 hx2
    rcases hlastb x2 hx2 with h' | h'
    · exact h'
    · simp at h'
  have hheadalloc : ∀ y, post.head? = some y → y.alloc = true := by
    intro y hy
    rcases hheadb y hy with h' | h'
    · simp at h'
    · exact h'
  have hpospre : ∀ x ∈ pre, 0 < x.size := fun x hx =>
    hpos x (by rw [hdec]; exact List.mem_append_left _ hx)
  have hpospost : ∀ x ∈ post, 0 < x.size := fun x hx =>
    hpos x (by rw [hdec]; simp [hx])
  have hbspos : 0 < bs := by
    have := hpos ⟨bs, false⟩ (by rw [hdec]; simp)
    simpa using this
  have hposFree : ∀ x ∈ pre ++ ⟨bs, false⟩ :: post, 0 < x.size := by
    rw [← hdec]
    exact hpos
  have hq2 : n ≤ innerAt (pre ++ ⟨bs, false⟩ :: post) a := by
    rw [← hdec, hs]
    exact hqual
  have hmin2 : ∀ x ∈ h.freeList.erase a, n ≤ innerAt (pre ++ ⟨bs, false⟩ :: post) x →
      innerAt (pre ++ ⟨bs, false⟩ :: post) a ≤ innerAt (pre ++ ⟨bs, false⟩ :: post) x := by
    rw [← hdec]
    intro x hx hnx
    have hxfl : x ∈ h.freeList := List.mem_of_mem_erase hx
    have hd : (x, innerAt h.blocks x) ∈ h.freeList.map fun y => (y, innerAt h.blocks y) :=
      List.mem_map_of_mem _ hxfl
    have hle := hminim (x, innerAt h.blocks x) hd hnx
    rw [hs]
    exact hle
  have hpa : (a + sizeofLong) - sizeofLong = a := by omega
  rw [mm_malloc_fit_eval h n a s f fl' hn' hfl hfind] at hmal
  by_cases hcond : sizeAt h.blocks a - (ALIGN_FLOOR n BLOCK_MIN + 2 * sizeofLong) < BLOCK_MIN
  · -- the whole block is handed over unsplit
    rw [if_pos hcond] at hmal
    injection hmal with he1 he2
    injection he2 with he2'
    subst he1
    subst he2'
    have hsetb : setAllocAt h.blocks OFFSET a true = pre ++ ⟨bs, true⟩ :: post := by
      rw [hdec, ha]
      exact setAllocAt_at _ _ true hpospre
    have hposAll : ∀ x ∈ pre ++ ⟨bs, true⟩ :: post, 0 < x.size := by
      intro x hx
      rcases List.mem_append.mp hx with hx' | hx'
      · exact hpospre x hx'
      · rcases List.mem_cons.mp hx' with rfl | hx''
        · simpa using hbspos
        · exact hpospost x hx''
    have hfree := mm_free_eval_isolated
        ({ blocks := setAllocAt h.blocks OFFSET a true, freeList := h.freeList.erase a } : Heap)
        (a + sizeofLong) a ⟨bs, true⟩ pre post hpa hsetb ha rfl
        (next_alloc_of_head pre ⟨bs, false⟩ post a hpospre hbspos ha hheadalloc)
        (prev_alloc_of_last pre (⟨bs, false⟩ :: post) a hposFree ha hlastalloc)
        (fun x hx => hposAll x (hsetb ▸ hx))
    rw [hfree]
    exact malloc_head_outcome
      ({ blocks := pre ++ ⟨bs, false⟩ :: post, freeList := a :: h.freeList.erase a } : Heap)
      n a (h.freeList.erase a) hn rfl hq2 hmin2 hposFree
  · -- the block is split; the remainder is re-absorbed by the free
    rw [if_neg hcond] at hmal
    injection hmal with he1 he2
    injection he2 with he2'
    subst he1
    subst he2'
    have hbm16 : BLOCK_MIN = 16 := by decide
    have hTpos : 0 < ALIGN_FLOOR n BLOCK_MIN + 2 * sizeofLong := by
      have := ALIGN_FLOOR_pos n BLOCK_MIN
      omega
    have hTle : ALIGN_FLOOR n BLOCK_MIN + 2 * sizeofLong + BLOCK_MIN ≤ bs := by
      rw [hszA] at hcond
      omega
    have hsplitb : splitAtAddr h.blocks OFFSET a (ALIGN_FLOOR n BLOCK_MIN + 2 * sizeofLong)
        = pre ++ ⟨ALIGN_FLOOR n BLOCK_MIN + 2 * sizeofLong, false⟩ ::
            ⟨bs - (ALIGN_FLOOR n BLOCK_MIN + 2 * sizeofLong), false⟩ :: post := by
      rw [hdec, ha]
      exact splitAtAddr_at _ _ _ hpospre
    have hsetb : setAllocAt
        (splitAtAddr h.blocks OFFSET a (ALIGN_FLOOR n BLOCK_MIN + 2 * sizeofLong))
        OFFSET a true
        = pre ++ ⟨ALIGN_FLOOR n BLOCK_MIN + 2 * sizeofLong, true⟩ ::
            ⟨bs - (ALIGN_FLOOR n BLOCK_MIN + 2 * sizeofLong), false⟩ :: post := by
      rw [hsplitb, ha]
      exact setAllocAt_at _ _ true hpospre
    have hpos1 : ∀ x ∈ pre ++ ⟨ALIGN_FLOOR n BLOCK_MIN + 2 * sizeofLong, true⟩ ::
        ⟨bs - (ALIGN_FLOOR n BLOCK_MIN + 2 * sizeofLong), false⟩ :: post, 0 < x.size := by
      intro x hx
      rcases List.mem_append.mp hx with hx' | hx'
      · exact hpospre x hx'
      · rcases List.mem_cons.mp hx' with rfl | hx''
        · simpa using hTpos
        · rcases List.mem_cons.mp hx'' with rfl | hx'''
          · simp only []
            omega
          · exact hpospost x hx'''
    have hposMerged : ∀ x ∈ pre ++ ⟨ALIGN_FLOOR n BLOCK_MIN + 2 * sizeofLong
        + (bs - (ALIGN_FLOOR n BLOCK_MIN + 2 * sizeofLong)), false⟩ :: post, 0 < x.size := by
      intro x hx
      rcases List.mem_append.mp hx with hx' | hx'
      · exact hpospre x hx'
      · rcases List.mem_cons.mp hx' with rfl | hx''
        · simp only []
          omega
        · exact hpospost x hx''
    have hfree := mm_free_eval_next_only
        ({ blocks := setAllocAt
            (splitAtAddr h.blocks OFFSET a (ALIGN_FLOOR n BLOCK_MIN + 2 * sizeofLong))
            OFFSET a true,
           freeList := (a + (ALIGN_FLOOR n BLOCK_MIN + 2 * sizeofLong)) ::
             h.freeList.erase a } : Heap)
        (a + sizeofLong) a ⟨ALIGN_FLOOR n BLOCK_MIN + 2 * sizeofLong, true⟩
        ⟨bs - (ALIGN_FLOOR n BLOCK_MIN + 2 * sizeofLong), false⟩ pre post
        hpa hsetb ha rfl rfl
        (prev_alloc_of_last pre
          (⟨ALIGN_FLOOR n BLOCK_MIN + 2 * sizeofLong
            + (bs - (ALIGN_FLOOR n BLOCK_MIN + 2 * sizeofLong)), false⟩ :: post) a
          hposMerged ha hlastalloc)
        (fun x hx => hpos1 x (hsetb ▸ hx))
    have hintnone : blockAt h.blocks OFFSET
        (a + (ALIGN_FLOOR n BLOCK_MIN + 2 * sizeofLong)) = none := by
      refine blockAt_interior pre ⟨bs, false⟩ post hdec hpos ?_ ?_
      · rw [← ha]
        omega
      · rw [← ha]
        dsimp only
        omega
    have hmapeq : ((a + (ALIGN_FLOOR n BLOCK_MIN + 2 * sizeofLong)) :: h.freeList.erase a).map
        (fun x => if x = a + (ALIGN_FLOOR n BLOCK_MIN + 2 * sizeofLong) then a else x)
        = a :: h.freeList.erase a := by
      rw [List.map_cons, if_pos rfl]
      congr 1
      refine map_id_on ?_
      intro x hx
      have hxfl := List.mem_of_mem_erase hx
      obtain ⟨bx, hbx, -⟩ := flOkB_spec h hflok x hxfl
      have hne : ¬ x = a + (ALIGN_FLOOR n BLOCK_MIN + 2 * sizeofLong) := by
        intro heq
        rw [heq, hintnone] at hbx
        cases hbx
      rw [if_neg hne]
    have hTsum : ALIGN_FLOOR n BLOCK_MIN + 2 * sizeofLong
        + (bs - (ALIGN_FLOOR n BLOCK_MIN + 2 * sizeofLong)) = bs := by omega
    rw [hfree, hmapeq, hTsum]
    exact malloc_head_outcome
      ({ blocks := pre ++ ⟨bs, false⟩ :: post, freeList := a :: h.freeList.erase a } : Heap)
      n a (h.freeList.erase a) hn rfl hq2 hmin2 hposFree

theorem round_trip_nofit (h : Heap) (n : Nat)
    (hpos : ∀ x ∈ h.blocks, 0 < x.size)
    (hadjB : noAdjB h.blocks = true)
    (hnd : h.freeList.Nodup)
    (hflok : flOkB h = true)
    (hlistedB : freeListedB h.freeList h.blocks OFFSET = true)
    (hn : 0 < n) (f : Nat) (fl' : List Nat) (hfl : h.freeList = f :: fl')
    (hfind : findMin n (h.freeList.map fun x => (x, innerAt h.blocks x)) none = none) :
    ∀ h₁ p, mm_malloc h n = (h₁, some p) →
      (mm_malloc (mm_free h₁ (some p)) n).2 = some p ∧
      sumSize (mm_malloc (mm_free h₁ (some p)) n).1.blocks
        = sumSize (mm_free h₁ (some p)).blocks := by
  intro h₁ p hmal
  have hn' : n ≠ 0 := by omega
  have hsl : sizeofLong = 4 := by decide
  have hall : ∀ x ∈ h.freeList, innerAt h.blocks x < n := by
    have hiff := (findMin_none_iff n (h.freeList.map fun x => (x, innerAt h.blocks x))).mp hfind
    intro x hx
    exact hiff (x, innerAt h.blocks x) (List.mem_map_of_mem _ hx)
  obtain ⟨bf, hbf, -⟩ := flOkB_spec h hflok f (by rw [hfl]; simp)
  rcases List.eq_nil_or_concat h.blocks with hnil | ⟨init, old, hdecL⟩
  · rw [hnil] at hbf
    cases hbf
  rw [List.concat_eq_append] at hdecL
  have hposinit : ∀ x ∈ init, 0 < x.size := fun x hx =>
    hpos x (by rw [hdecL]; exact List.mem_append_left _ hx)
  have holdpos : 0 < old.size := hpos old (by rw [hdecL]; simp)
  rw [mm_malloc_nofit_eval h n f fl' hn' hfl hfind] at hmal
  by_cases holda : old.alloc = true
  · -- the trailing block is allocated: a fresh block is appended
    rw [extend_eval_alloc h n init old hdecL holda] at hmal
    dsimp only at hmal
    injection hmal with he1 he2
    injection he2 with he2'
    subst he1
    subst he2'
    have hBpos : 0 < ALIGN_FLOOR n BLOCK_MIN := ALIGN_FLOOR_pos n BLOCK_MIN
    have hsetb : setAllocAt (h.blocks ++ [⟨ALIGN_FLOOR n BLOCK_MIN, false⟩]) OFFSET
        (OFFSET + sumSize h.blocks) true
        = h.blocks ++ [⟨ALIGN_FLOOR n BLOCK_MIN, true⟩] :=
      setAllocAt_at _ _ true hpos
    have herase : h.freeList.erase (OFFSET + sumSize h.blocks) = h.freeList := by
      refine List.erase_of_not_mem ?_
      intro hmem
      obtain ⟨bx, hbx, -⟩ := flOkB_spec h hflok (OFFSET + sumSize h.blocks) hmem
      rw [blockAt_none_of_ge_end hpos (Nat.le_refl _)] at hbx
      cases hbx
    rw [hsetb, herase]
    have hpa : (OFFSET + sumSize h.blocks + sizeofLong) - sizeofLong
        = OFFSET + sumSize h.blocks := by omega
    have hlastH : ∀ x2, h.blocks.getLast? = some x2 → x2.alloc = true := by
      intro x2 hx2
      rw [hdecL, List.getLast?_concat] at hx2
      injection hx2 with hx2'
      subst hx2'
      exact holda
    have hposExtAlloc : ∀ x ∈ h.blocks ++ [(⟨ALIGN_FLOOR n BLOCK_MIN, true⟩ : Block)],
        0 < x.size := by
      intro x hx
      rcases List.mem_append.mp hx with hx' | hx'
      · exact hpos x hx'
      · rcases List.mem_singleton.mp hx' with rfl
        exact hBpos
    have hposExtFree : ∀ x ∈ h.blocks ++ [(⟨ALIGN_FLOOR n BLOCK_MIN, false⟩ : Block)],
        0 < x.size := by
      intro x hx
      rcases List.mem_append.mp hx with hx' | hx'
      · exact hpos x hx'
      · rcases List.mem_singleton.mp hx' with rfl
        exact hBpos
    have hfree := mm_free_eval_isolated
        ({ blocks := h.blocks ++ [⟨ALIGN_FLOOR n BLOCK_MIN, true⟩],
           freeList := h.freeList } : Heap)
        (OFFSET + sumSize h.blocks + sizeofLong) (OFFSET + sumSize h.blocks)
        ⟨ALIGN_FLOOR n BLOCK_MIN, true⟩ h.blocks []
        hpa rfl rfl rfl
        (next_alloc_of_head h.blocks ⟨ALIGN_FLOOR n BLOCK_MIN, false⟩ [] _ hpos hBpos rfl
          (fun y hy => by cases hy))
        (prev_alloc_of_last h.blocks (⟨ALIGN_FLOOR n BLOCK_MIN, false⟩ :: []) _
          hposExtFree rfl hlastH)
        hposExtAlloc
    rw [hfree]
    have hba2 : blockAt (h.blocks ++ ⟨ALIGN_FLOOR n BLOCK_MIN, false⟩ :: []) OFFSET
        (OFFSET + sumSize h.blocks) = some ⟨ALIGN_FLOOR n BLOCK_MIN, false⟩ :=
      blockAt_at _ _ hpos
    have hq : n ≤ innerAt (h.blocks ++ ⟨ALIGN_FLOOR n BLOCK_MIN, false⟩ :: [])
        (OFFSET + sumSize h.blocks) := by
      rw [innerAt, hba2]
      exact le_inner_ALIGN_FLOOR n
    have hmin : ∀ x ∈ h.freeList,
        n ≤ innerAt (h.blocks ++ ⟨ALIGN_FLOOR n BLOCK_MIN, false⟩ :: []) x →
        innerAt (h.blocks ++ ⟨ALIGN_FLOOR n BLOCK_MIN, false⟩ :: [])
          (OFFSET + sumSize h.blocks)
          ≤ innerAt (h.blocks ++ ⟨ALIGN_FLOOR n BLOCK_MIN, false⟩ :: []) x := by
      intro x hx hnx
      obtain ⟨bx, hbx, -⟩ := flOkB_spec h hflok x hx
      have hbx2 : blockAt (h.blocks ++ ⟨ALIGN_FLOOR n BLOCK_MIN, false⟩ :: []) OFFSET x
          = some bx := blockAt_append_some hbx _
      have he1 : innerAt (h.blocks ++ ⟨ALIGN_FLOOR n BLOCK_MIN, false⟩ :: []) x
          = bx.size - 2 * sizeofLong := by rw [innerAt, hbx2]
      have he2 : innerAt h.blocks x = bx.size - 2 * sizeofLong := by rw [innerAt, hbx]
      rw [he1] at hnx
      have hlt := hall x hx
      rw [he2] at hlt
      omega
    exact malloc_head_outcome
      ({ blocks := h.blocks ++ ⟨ALIGN_FLOOR n BLOCK_MIN, false⟩ :: [],
         freeList := (OFFSET + sumSize h.blocks) :: h.freeList } : Heap)
      n (OFFSET + sumSize h.blocks) h.freeList hn rfl hq hmin hposExtFree
  · -- the trailing block is free: it is extended in place
    have holdf : old.alloc = false := by
      revert holda
      cases old.alloc <;> simp
    rw [extend_eval_free h n init old hdecL holdf] at hmal
    dsimp only at hmal
    injection hmal with he1 he2
    injection he2 with he2'
    subst he1
    subst he2'
    have haL : (OFFSET + sumSize init) ∈ h.freeList :=
      freeListedB_spec h.freeList h.blocks OFFSET hlistedB init old [] hdecL holdf
    have holdba : blockAt h.blocks OFFSET (OFFSET + sumSize init) = some old := by
      rw [hdecL]
      exact blockAt_at old [] hposinit
    have holdinner : innerAt h.blocks (OFFSET + sumSize init)
        = old.size - 2 * sizeofLong := by
      rw [innerAt, holdba]
    have holdlt : old.size - 2 * sizeofLong < n := by
      have := hall _ haL
      rw [holdinner] at this
      exact this
    have hA := le_ALIGN (2 * sizeofLong + n - old.size)
    have hT'pos : 0 < old.size + ALIGN (2 * sizeofLong + n - old.size) := by omega
    have hsetb : setAllocAt
        (init ++ [⟨old.size + ALIGN (2 * sizeofLong + n - old.size), false⟩]) OFFSET
        (OFFSET + sumSize init) true
        = init ++ [⟨old.size + ALIGN (2 * sizeofLong + n - old.size), true⟩] :=
      setAllocAt_at _ _ true hposinit
    have hadjC : List.Chain' (fun x y => x.alloc = true ∨ y.alloc = true)
        (init ++ old :: []) := by
      rw [← hdecL, ← noAdjB_chain]
      exact hadjB
    obtain ⟨hLinit, -, hlastinit, -⟩ := chain_extract init [] old hadjC
    have hlastallocI : ∀ x2, init.getLast? = some x2 → x2.alloc = true := by
      intro x2 hx2
      rcases hlastinit x2 hx2 with h' | h'
      · exact h'
      · rw [holdf] at h'
        cases h'
    have hposExtAlloc : ∀ x ∈ init
        ++ [(⟨old.size + ALIGN (2 * sizeofLong + n - old.size), true⟩ : Block)],
        0 < x.size := by
      intro x hx
      rcases List.mem_append.mp hx with hx' | hx'
      · exact hposinit x hx'
      · rcases List.mem_singleton.mp hx' with rfl
        simpa using hT'pos
    have hposExtFree : ∀ x ∈ init
        ++ [(⟨old.size + ALIGN (2 * sizeofLong + n - old.size), false⟩ : Block)],
        0 < x.size := by
      intro x hx
      rcases List.mem_append.mp hx with hx' | hx'
      · exact hposinit x hx'
      · rcases List.mem_singleton.mp hx' with rfl
        simpa using hT'pos
    have hpa : (OFFSET + sumSize init + sizeofLong) - sizeofLong
        = OFFSET + sumSize init := by omega
    have hfree := mm_free_eval_isolated
        ({ blocks := setAllocAt
            (init ++ [⟨old.size + ALIGN (2 * sizeofLong + n - old.size), false⟩]) OFFSET
            (OFFSET + sumSize init) true,
           freeList := h.freeList.erase (OFFSET + sumSize init) } : Heap)
        (OFFSET + sumSize init + sizeofLong) (OFFSET + sumSize init)
        ⟨old.size + ALIGN (2 * sizeofLong + n - old.size), true⟩ init []
        hpa hsetb rfl rfl
        (next_alloc_of_head init
          ⟨old.size + ALIGN (2 * sizeofLong + n - old.size), false⟩ [] _ hposinit
          (by simpa using hT'pos) rfl (fun y hy => by cases hy))
        (prev_alloc_of_last init
          (⟨old.size + ALIGN (2 * sizeofLong + n - old.size), false⟩ :: []) _
          hposExtFree rfl hlastallocI)
        (fun x hx => hposExtAlloc x (hsetb ▸ hx))
    rw [hfree]
    have hba2 : blockAt
        (init ++ ⟨old.size + ALIGN (2 * sizeofLong + n - old.size), false⟩ :: []) OFFSET
        (OFFSET + sumSize init)
        = some ⟨old.size + ALIGN (2 * sizeofLong + n - old.size), false⟩ :=
      blockAt_at _ _ hposinit
    have hq : n ≤ innerAt
        (init ++ ⟨old.size + ALIGN (2 * sizeofLong + n - old.size), false⟩ :: [])
        (OFFSET + sumSize init) := by
      rw [innerAt, hba2]
      dsimp only
      omega
    have hmin : ∀ x ∈ h.freeList.erase (OFFSET + sumSize init),
        n ≤ innerAt
          (init ++ ⟨old.size + ALIGN (2 * sizeofLong + n - old.size), false⟩ :: []) x →
        innerAt (init ++ ⟨old.size + ALIGN (2 * sizeofLong + n - old.size), false⟩ :: [])
          (OFFSET + sumSize init)
          ≤ innerAt
            (init ++ ⟨old.size + ALIGN (2 * sizeofLong + n - old.size), false⟩ :: []) x := by
      intro x hx hnx
      have hxfl := List.mem_of_mem_erase hx
      have hxne : x ≠ OFFSET + sumSize init := ((List.Nodup.mem_erase_iff hnd).mp hx).1
      obtain ⟨bx, hbx, -⟩ := flOkB_spec h hflok x hxfl
      have hbxinit : blockAt init OFFSET x = some bx := by
        rw [hdecL] at hbx
        rcases hsplit2 : blockAt init OFFSET x with _ | bx'
        · rw [blockAt_append_none hsplit2] at hbx
          by_cases heq : OFFSET + sumSize init = x
          · exact absurd heq.symm hxne
          · simp only [blockAt, if_neg heq] at hbx
            cases hbx
        · rw [blockAt_append_some hsplit2] at hbx
          injection hbx with hbx'
          subst hbx'
          rfl
      have hbx2 : blockAt
          (init ++ ⟨old.size + ALIGN (2 * sizeofLong + n - old.size), false⟩ :: []) OFFSET x
          = some bx := blockAt_append_some hbxinit _
      have he1 : innerAt
          (init ++ ⟨old.size + ALIGN (2 * sizeofLong + n - old.size), false⟩ :: []) x
          = bx.size - 2 * sizeofLong := by rw [innerAt, hbx2]
      have he2 : innerAt h.blocks x = bx.size - 2 * sizeofLong := by rw [innerAt, hbx]
      rw [he1] at hnx
      have hlt := hall x hxfl
      rw [he2] at hlt
      omega
    exact malloc_head_outcome
      ({ blocks := init ++ ⟨old.size + ALIGN (2 * sizeofLong + n - old.size), false⟩ :: [],
         freeList := (OFFSET + sumSize init) :: h.freeList.erase (OFFSET + sumSize init) }
        : Heap)
      n (OFFSET + sumSize init) (h.freeList.erase (OFFSET + sumSize init)) hn rfl hq hmin
      hposExtFree

/-! Claim C9. -/

/-- C9: from any well-formed allocator state, if `allocate(n)` returns
payload pointer `p` and `deallocate(p)` is called with no other allocation
intervening, the next `allocate(n)` returns the same payload address and
does not grow the region (the total size of the block region is unchanged
by that call). -/
theorem malloc_free_malloc_round_trip (h : Heap) (n : Nat) (hWF : WF h) (hn : 0 < n) :
    ∀ h₁ p, mm_malloc h n = (h₁, some p) →
      (mm_malloc (mm_free h₁ (some p)) n).2 = some p ∧
      sumSize (mm_malloc (mm_free h₁ (some p)) n).1.blocks
        = sumSize (mm_free h₁ (some p)).blocks := by
  obtain ⟨hpos, hadjB, hnd, hflok, hlistedB⟩ := hWF
  rcases hfl : h.freeList with _ | ⟨f, fl'⟩
  · exact round_trip_emptyfl h n hpos hlistedB hn hfl
  · rcases hfind : findMin n (h.freeList.map fun x => (x, innerAt h.blocks x)) none
      with _ | ⟨a, s⟩
    · exact round_trip_nofit h n hpos hadjB hnd hflok hlistedB hn f fl' hfl hfind
    · exact round_trip_fit h n a s hpos hadjB hflok hn f fl' hfl hfind

/-- Witness for C9 on the fresh region: allocate(5) gives pointer 8,
freeing it and allocating 5 again returns pointer 8. -/
theorem malloc_free_malloc_round_trip_witness :
    (mm_malloc (mm_free ({ blocks := [⟨24, true⟩], freeList := [] } : Heap) (some 8)) 5).2
      = some 8 :=
  (malloc_free_malloc_round_trip initHeap 5 (by decide) (by decide)
    ⟨[⟨24, true⟩], []⟩ 8 (by decide)).1

/-! Claim C4. -/

/-- C4: when the best-fit scan of `mm_malloc` selects the free block at
address `a`, that address is removed from the free list; if the leftover
after reserving the request's block size is at least `BLOCK_MIN`, the
chosen block is truncated to the reserved size and marked allocated, the
remainder becomes a new free block threaded at the free-list head, and the
chosen block's payload is returned; otherwise the entire block is handed
over unsplit. -/
theorem malloc_fit_path_spec (h : Heap) (size a s : Nat) (b : Block)
    (pre post : List Block)
    (hs : size ≠ 0) (hfl : h.freeList ≠ []) (hnd : h.freeList.Nodup)
    (hfind : findMin size (h.freeList.map fun x => (x, innerAt h.blocks x)) none = some (a, s))
    (hdec : h.blocks = pre ++ b :: post) (ha : a = OFFSET + sumSize pre)
    (hpos : ∀ x ∈ pre, 0 < x.size) :
    a ∉ (mm_malloc h size).1.freeList ∧
    (BLOCK_MIN ≤ b.size - (ALIGN_FLOOR size BLOCK_MIN + 2 * sizeofLong) →
       (mm_malloc h size).1.blocks =
         pre ++ ⟨ALIGN_FLOOR size BLOCK_MIN + 2 * sizeofLong, true⟩ ::
           ⟨b.size - (ALIGN_FLOOR size BLOCK_MIN + 2 * sizeofLong), false⟩ :: post ∧
       (mm_malloc h size).1.freeList =
         (a + (ALIGN_FLOOR size BLOCK_MIN + 2 * sizeofLong)) :: h.freeList.erase a ∧
       (mm_malloc h size).2 = some (a + sizeofLong)) ∧
    (b.size - (ALIGN_FLOOR size BLOCK_MIN + 2 * sizeofLong) < BLOCK_MIN →
       (mm_malloc h size).1.blocks = pre ++ ⟨b.size, true⟩ :: post ∧
       (mm_malloc h size).1.freeList = h.freeList.erase a ∧
       (mm_malloc h size).2 = some (a + sizeofLong)) := by
  obtain ⟨blocks, fls⟩ := h
  dsimp only at hdec hfind hfl hnd ⊢
  subst hdec
  have hblockAt : blockAt (pre ++ b :: post) OFFSET a = some b := by
    rw [ha]
    exact blockAt_at b post hpos
  have hsize : sizeAt (pre ++ b :: post) a = b.size := by
    unfold sizeAt
    rw [hblockAt]
  cases fls with
  | nil => exact absurd rfl hfl
  | cons f fl' =>
    have heval : mm_malloc ⟨pre ++ b :: post, f :: fl'⟩ size =
        (if b.size - (ALIGN_FLOOR size BLOCK_MIN + 2 * sizeofLong) < BLOCK_MIN then
          ({ blocks := setAllocAt (pre ++ b :: post) OFFSET a true,
             freeList := (f :: fl').erase a }, some (a + sizeofLong))
         else
          ({ blocks := setAllocAt (splitAtAddr (pre ++ b :: post) OFFSET a
                (ALIGN_FLOOR size BLOCK_MIN + 2 * sizeofLong)) OFFSET a true,
             freeList := (a + (ALIGN_FLOOR size BLOCK_MIN + 2 * sizeofLong)) :: (f :: fl').erase a },
           some (a + sizeofLong))) := by
      simp only [mm_malloc, if_neg hs]
      rw [hfind]
      dsimp only
      rw [hsize]
    have hsetWhole : setAllocAt (pre ++ b :: post) OFFSET a true = pre ++ ⟨b.size, true⟩ :: post := by
      rw [ha]
      exact setAllocAt_at b post true hpos
    have hsetSplit :
        setAllocAt (splitAtAddr (pre ++ b :: post) OFFSET a
            (ALIGN_FLOOR size BLOCK_MIN + 2 * sizeofLong)) OFFSET a true =
          pre ++ ⟨ALIGN_FLOOR size BLOCK_MIN + 2 * sizeofLong, true⟩ ::
            ⟨b.size - (ALIGN_FLOOR size BLOCK_MIN + 2 * sizeofLong), false⟩ :: post := by
      rw [ha, splitAtAddr_at b post _ hpos]
      exact setAllocAt_at _ _ true hpos
    have hnotmem : a ∉ (f :: fl').erase a := fun hmem =>
      absurd ((List.Nodup.mem_erase_iff hnd).mp hmem).1 (by simp)
    by_cases hcond : b.size - (ALIGN_FLOOR size BLOCK_MIN + 2 * sizeofLong) < BLOCK_MIN
    · rw [heval, if_pos hcond]
      refine ⟨hnotmem, fun hge => absurd hcond (by omega), fun _ => ⟨hsetWhole, rfl, rfl⟩⟩
    · rw [heval, if_neg hcond]
      have hsplitpos : 0 < ALIGN_FLOOR size BLOCK_MIN + 2 * sizeofLong := by
        have := ALIGN_FLOOR_pos size BLOCK_MIN
        omega
      refine ⟨?_, fun _ => ⟨hsetSplit, rfl, rfl⟩, fun hlt => absurd hlt hcond⟩
      intro hmem
      rcases List.mem_cons.mp hmem with heq | hmem'
      · omega
      · exact hnotmem hmem'

/-- Witness for C4: a single 48-byte free block serving an 8-byte request
is split into a 32-byte allocated block and a 16-byte free remainder at
the free-list head. -/
theorem malloc_fit_path_spec_witness :
    (mm_malloc ⟨[⟨48, false⟩], [4]⟩ 8).1.blocks = [⟨32, true⟩, ⟨16, false⟩] ∧
    (mm_malloc ⟨[⟨48, false⟩], [4]⟩ 8).1.freeList = [36] ∧
    (mm_malloc ⟨[⟨48, false⟩], [4]⟩ 8).2 = some 8 ∧
    4 ∉ (mm_malloc ⟨[⟨48, false⟩], [4]⟩ 8).1.freeList := by
  have hthm := malloc_fit_path_spec ⟨[⟨48, false⟩], [4]⟩ 8 4 40 ⟨48, false⟩ [] []
    (by decide) (by decide) (by decide) (by decide) rfl (by decide) (by simp)
  obtain ⟨hnm, hsplit, -⟩ := hthm
  obtain ⟨hb, hf, hr⟩ := hsplit (by decide)
  refine ⟨?_, ?_, ?_, hnm⟩
  · rw [hb]
    decide
  · rw [hf]
    decide
  · rw [hr]
    decide

/-- Witness for C6: a 24-byte free trailing block extended in place to
serve a 32-byte request. -/
theorem extend_grow_spec_witness :
    extend ⟨[⟨24, false⟩], []⟩ 32 = ({ blocks := [⟨40, false⟩], freeList := [] }, 4) ∧
    extend ⟨[⟨24, true⟩], []⟩ 32 = ({ blocks := [⟨24, true⟩, ⟨40, false⟩], freeList := [] }, 28) := by
  have hfree := (extend_grow_spec ⟨[⟨24, false⟩], []⟩ 32).2.2 [] ⟨24, false⟩ rfl rfl
  have halloc := (extend_grow_spec ⟨[⟨24, true⟩], []⟩ 32).2.1 [] ⟨24, true⟩ rfl rfl
  rw [hfree.1, halloc]
  constructor <;> decide

end MM
